import Mathlib

/-!
Verification of the CubeCL optimizer middle-end (crate `cubecl-opt`).

The definitions below are a shallow embedding of `crates/cubecl-opt/src/lib.rs`
(and of the backend assertion in `crates/cubecl-spirv/src/branch.rs`).
Machine integers (`u16`, `u8`, `usize`) are modelled as `Nat`; `Rc<AtomicUsize>`
is modelled as an index into an explicit store of cells; panics (`unreachable!`,
`unwrap` on `None`) are modelled by `Option` with `none` as the fatal abort.
Code of the repository that lives in modules not present in the source slice
(the individual optimizer passes, `control_flow.rs`, the scope type of
`cubecl-core`) is modelled from the specification; each such definition carries
a doc comment starting with `Modelled from the spec:`.
-/

namespace CubeclOpt

/-! ## Element types, items, variables (`cubecl-core` IR data model)

Modelled from the spec: the `Item`/`Variable` data model of `cubecl_core::ir`
is not part of the source slice.  §3 of the specification lists the variant
set and states that an `Item` is an element type paired with a vectorization
factor and that the element type determines whether a value is atomic. -/

/-- Alias for the booleans, usable inside namespaces that also declare a
constructor named `Bool`. -/
abbrev BoolTy := Bool

/-- Modelled from the spec: element types; the atomic variants are the ones
excluded from SSA. -/
inductive Elem where
  | Float
  | Int
  | UInt
  | Bool
  | AtomicInt
  | AtomicUInt
deriving DecidableEq

/-- Modelled from the spec: whether the element type is atomic. -/
def Elem.is_atomic : Elem → BoolTy
  | .AtomicInt => true
  | .AtomicUInt => true
  | _ => false

/-- Modelled from the spec: an item is an element type with a vectorization
factor. -/
structure Item where
  elem : Elem
  vectorization : Nat
deriving DecidableEq

/-- Modelled from the spec: the tagged variant type of IR variables (§3). -/
inductive Variable where
  | Local (id : Nat) (depth : Nat) (item : Item)
  | Versioned (id : Nat) (depth : Nat) (item : Item) (version : Nat)
  | ConstScalar (value : Int) (elem : Elem)
  | GlobalScalar (id : Nat) (elem : Elem)
  | GlobalInputArray (id : Nat) (item : Item)
  | GlobalOutputArray (id : Nat) (item : Item)
  | Slice (id : Nat) (depth : Nat) (item : Item)
  | Matrix (id : Nat) (depth : Nat)
  | Position (dim : Nat)
deriving DecidableEq

/-- A binary operator payload: two inputs and an output variable, as in
`cubecl_core::ir::BinaryOperator` (used here for `IndexAssign`). -/
structure BinaryOperator where
  lhs : Variable
  rhs : Variable
  out : Variable
deriving DecidableEq

/-- A slice operator payload: input array, start, end and output variable, as
in `cubecl_core::ir::SliceOperator`. -/
structure SliceOperator where
  input : Variable
  start : Variable
  end_ : Variable
  out : Variable
deriving DecidableEq

/-- Operators relevant to the optimizer driver: `IndexAssign` (drives the SSA
exemption), `Slice` (drives slice tracking) and a catch-all for every other
operator. -/
inductive OperatorIR where
  | IndexAssign (bin : BinaryOperator)
  | Slice (sl : SliceOperator)
  | Other (code : Nat) (out : Option Variable)
deriving DecidableEq

/-- Non-branch, non-procedure operations as they appear in a basic block's
`ops` list. -/
inductive OperationIR where
  | Operator (op : OperatorIR)
  | Metadata (code : Nat)
  | Synchronization (code : Nat)
deriving DecidableEq

/-! ## `Optimizer::local_variable_id` (lib.rs lines 396-405) -/

/-- Embedding of `Optimizer::local_variable_id`: the `(id, depth)` of a
non-atomic `Local`, `none` otherwise. -/
def local_variable_id : Variable → Option (Nat × Nat)
  | .Local id depth item => if item.elem.is_atomic then none else some (id, depth)
  | _ => none

/-! ## `AtomicCounter` (lib.rs lines 62-85)

`Rc<AtomicUsize>` is modelled as an index (`inner`) into an explicit store of
cells; `Clone` for the counter copies the index, so clones alias one cell. -/

/-- The store of allocated counter cells. -/
structure CounterStore where
  cells : List Nat
deriving DecidableEq

/-- Embedding of `AtomicCounter`: `inner` models the `Rc<AtomicUsize>` pointer
as a cell index. -/
structure AtomicCounter where
  inner : Nat
deriving DecidableEq

/-- Embedding of `AtomicCounter::new`: allocates a fresh cell holding `val`. -/
def AtomicCounter.new (val : Nat) (s : CounterStore) : AtomicCounter × CounterStore :=
  (⟨s.cells.length⟩, ⟨s.cells ++ [val]⟩)

/-- Embedding of `Clone::clone` on `AtomicCounter`: cloning an `Rc` copies the
pointer, so the clone aliases the same cell. -/
def AtomicCounter.clone (c : AtomicCounter) : AtomicCounter := c

/-- Embedding of `AtomicCounter::inc` (`fetch_add(1)`): returns the count just
before the increment, and bumps the cell. -/
def AtomicCounter.inc (c : AtomicCounter) (s : CounterStore) : Nat × CounterStore :=
  (s.cells.getD c.inner 0, ⟨s.cells.set c.inner (s.cells.getD c.inner 0 + 1)⟩)

/-- Embedding of `AtomicCounter::get` (`load`). -/
def AtomicCounter.get (c : AtomicCounter) (s : CounterStore) : Nat :=
  s.cells.getD c.inner 0

/-- Performs one `inc` through each handle of `hs` in order (an interleaving of
increments through possibly different clones), collecting the returned
pre-increment counts. -/
def incRun : List AtomicCounter → CounterStore → List Nat × CounterStore
  | [], s => ([], s)
  | c :: cs, s =>
    let (r, s') := AtomicCounter.inc c s
    let (rs, s'') := incRun cs s'
    (r :: rs, s'')

/-- Performs `n` increments through the handle `c`. -/
def incN (c : AtomicCounter) : Nat → CounterStore → CounterStore
  | 0, s => s
  | n + 1, s => incN c n (AtomicCounter.inc c s).2

/-! ## The optimization driver `Optimizer::run_opt` (lib.rs lines 175-189)

The driver's observable behaviour at the level of claim C1 is the sequence of
phases it executes.  Each phase is recorded as an event; the only data the
branch of `run_opt` consults is the `arrays_prop` counter, which
`CopyPropagateArray` increments once per change it performs.  The number of
changes that pass makes is abstract here (its body is in `passes/`, outside
the source slice), so the trace is a function of that number. -/

/-- The phases executed by `Optimizer::run_opt`, in the order the driver's
body names them. -/
inductive OptPhase where
  | parseGraph
  | analyzeLiveness
  | applyPreSsaPasses
  | exemptIndexAssignLocals
  | ssaTransform
  | applyPostSsaPasses
  | copyPropagateArray
deriving DecidableEq

/-- Embedding of `Optimizer::run_opt` as the trace of phases it executes,
parameterized by `copyPropChanges`, the number of times `CopyPropagateArray`
increments the counter clone handed to it (once per change, per the pass
contract in §4.6). -/
def run_opt_trace (copyPropChanges : Nat) : List OptPhase :=
  let s0 : CounterStore := ⟨[]⟩
  let (arrays_prop, s1) := AtomicCounter.new 0 s0
  let s2 := incN (AtomicCounter.clone arrays_prop) copyPropChanges s1
  let base : List OptPhase :=
    [.parseGraph, .analyzeLiveness, .applyPreSsaPasses, .exemptIndexAssignLocals,
     .ssaTransform, .applyPostSsaPasses, .copyPropagateArray]
  if 0 < AtomicCounter.get arrays_prop s2 then
    base ++ [.analyzeLiveness, .ssaTransform, .applyPostSsaPasses]
  else
    base

/-! ## Pass lists (`apply_pre_ssa_passes`, `apply_post_ssa_passes`, lib.rs
lines 208-257) -/

/-- The execution mode of `cubecl_core::ExecutionMode`. -/
inductive ExecutionMode where
  | Checked
  | Unchecked
deriving DecidableEq

/-- Names of the optimizer passes. -/
inductive PassName where
  | CompositeMerge
  | InlineAssignments
  | EliminateUnusedVariables
  | ConstOperandSimplify
  | MergeSameExpressions
  | ConstEval
  | RemoveIndexScalar
  | EliminateConstBranches
  | EliminateDeadBlocks
  | CopyTransform
  | IntegerRangeAnalysis
  | FindConstSliceLen
  | InBoundsToUnchecked
  | CopyPropagateArray
deriving DecidableEq

/-- The pass list built by `Optimizer::apply_pre_ssa_passes`. -/
def preSsaPassList : List PassName := [.CompositeMerge]

/-- The pass list built by `Optimizer::apply_post_ssa_passes`: the
mode-independent `passes` vector, extended with `checked_passes` exactly when
the execution mode matches `ExecutionMode::Checked`. -/
def postSsaPassList (mode : ExecutionMode) : List PassName :=
  let passes : List PassName :=
    [.InlineAssignments, .EliminateUnusedVariables, .ConstOperandSimplify,
     .MergeSameExpressions, .ConstEval, .RemoveIndexScalar,
     .EliminateConstBranches, .EliminateDeadBlocks, .CopyTransform]
  let checked_passes : List PassName :=
    [.IntegerRangeAnalysis, .FindConstSliceLen, .InBoundsToUnchecked]
  if mode = ExecutionMode.Checked then passes ++ checked_passes else passes

/-! ## The fixed-point pass loop (lib.rs lines 208-222 and 247-257)

Both `apply_pre_ssa_passes` and `apply_post_ssa_passes` share the same loop
shape: allocate a fresh counter, run every pass in the list handing each a
clone of the counter, and stop when the counter still reads zero.

Modelled from the spec: the pass bodies live in `passes/` outside the source
slice.  A pass is modelled as a state transformer that also reports how many
times it incremented the shared counter; §4.5 provides the convergence
provision that every mutation strictly decreases a well-founded measure, which
appears below as the hypothesis of the termination theorem. -/

/-- One pass, modelled as a state transformer returning the new state and the
number of counter increments it performed. -/
def Pass (St : Type) : Type := St → St × Nat

/-- One iteration of a pass loop: run every pass in order, threading the state
and summing the counter increments (all passes share one counter). -/
def iterOnce {St : Type} (passes : List (Pass St)) (s : St) : St × Nat :=
  passes.foldl (fun acc p => let r := p acc.1; (r.1, acc.2 + r.2)) (s, 0)

/-- The `loop { let counter = AtomicCounter::default(); ...; if counter.get()
== 0 { break } }` shape shared by both pass loops, with explicit fuel.  It
returns the final state and the list of per-iteration counter readings;
`none` means the fuel ran out before the loop broke. -/
def passLoop {St : Type} (passes : List (Pass St)) : Nat → St → Option (St × List Nat)
  | 0, _ => none
  | fuel + 1, s =>
    let r := iterOnce passes s
    if r.2 = 0 then
      some (r.1, [r.2])
    else
      match passLoop passes fuel r.1 with
      | some (sf, cs) => some (sf, r.2 :: cs)
      | none => none

/-! ## The scope parser (`parse_graph` / `parse_scope`, lib.rs lines 196-206
and 316-353)

A `Scope` is a sequence of operations; nested control flow carries nested
scopes.  The sequence is represented here in cons form: every constructor
carries the rest of the scope, which is the ordered-operation-list structure
of `cubecl_core::ir::Scope` written out structurally.

Modelled from the spec: `parse_control_flow` lives in `control_flow.rs`,
outside the source slice; the branch constructors below and their translation
follow the design-level translation rules of §4.1 (If, IfElse, Loop, RangeLoop
desugared to a Loop with a Break test, Return, Procedure expansion). -/

/-- A scope: the ordered operation sequence of `cubecl_core::ir::Scope`, in
cons form, with declared local variables and nested sub-scopes inline. -/
inductive CScope where
  | nil : CScope
  | declVar (id : Nat) (depth : Nat) (item : Item) (rest : CScope) : CScope
  | op (o : OperationIR) (rest : CScope) : CScope
  | branchIf (cond : Variable) (then_scope : CScope) (rest : CScope) : CScope
  | branchIfElse (cond : Variable) (then_scope : CScope) (else_scope : CScope)
      (rest : CScope) : CScope
  | branchLoop (body : CScope) (rest : CScope) : CScope
  | branchRangeLoop (ivar : Variable) (start : Variable) (end_ : Variable)
      (body : CScope) (rest : CScope) : CScope
  | branchReturn (rest : CScope) : CScope
  | procedure (body : CScope) (rest : CScope) : CScope
deriving DecidableEq

/-- The basic-block terminators of `control_flow.rs`, over node ids. -/
inductive ControlFlow where
  | None
  | IfElse (cond : Variable) (then_ : Nat) (or_else : Nat) (merge : Nat)
  | Switch (value : Variable) (default : Nat) (branches : List (Nat × Nat)) (merge : Nat)
  | Loop (body : Nat) (continue_target : Nat) (merge : Nat)
  | Break (cond : Variable) (body : Nat) (or_break : Nat)
  | Return
deriving DecidableEq

/-- The per-slice record stored in `program.slices` (lib.rs lines 87-93). -/
structure SliceRec where
  start : Variable
  end_ : Variable
  end_op : Option OperationIR
  const_len : Option Nat
deriving DecidableEq

/-- The parser/optimizer state: the stable graph (`nblocks` nodes named by
`0..nblocks`, with per-node terminator and ops list), the edge list, the root
and return nodes, the parsing cursor, the loop break stack, and the
`variables` and `slices` maps of `Program`. -/
structure ParseState where
  nblocks : Nat
  term : Nat → ControlFlow
  blockOps : Nat → List OperationIR
  edges : List (Nat × Nat)
  root : Nat
  ret : Nat
  current_block : Option Nat
  loop_break : List Nat
  vars : Nat × Nat → Option Item
  slices : Nat × Nat → Option SliceRec

/-- The empty program state, before `parse_graph` allocates any node. -/
def ParseState.initial : ParseState where
  nblocks := 0
  term := fun _ => ControlFlow.None
  blockOps := fun _ => []
  edges := []
  root := 0
  ret := 0
  current_block := none
  loop_break := []
  vars := fun _ => none
  slices := fun _ => none

/-- `StableDiGraph::add_node`: allocates the next node id, with default
(`None`-terminated, empty) block contents. -/
def addNode (st : ParseState) : Nat × ParseState :=
  (st.nblocks, { st with nblocks := st.nblocks + 1 })

/-- `StableDiGraph::add_edge`. -/
def addEdge (src dst : Nat) (st : ParseState) : ParseState :=
  { st with edges := st.edges ++ [(src, dst)] }

/-- Writes a block's terminator (`*block.control_flow.borrow_mut() = t`). -/
def setTerm (i : Nat) (t : ControlFlow) (st : ParseState) : ParseState :=
  { st with term := fun j => if j = i then t else st.term j }

/-- Appends an operation to a block's ops list (`ops.borrow_mut().push(op)`). -/
def pushOp (i : Nat) (o : OperationIR) (st : ParseState) : ParseState :=
  { st with blockOps := fun j => if j = i then st.blockOps j ++ [o] else st.blockOps j }

/-- Inserts into `program.slices`. -/
def insertSlice (k : Nat × Nat) (v : SliceRec) (st : ParseState) : ParseState :=
  { st with slices := fun k' => if k' = k then some v else st.slices k' }

/-- Inserts into `program.variables`. -/
def insertVariable (k : Nat × Nat) (v : Item) (st : ParseState) : ParseState :=
  { st with vars := fun k' => if k' = k then some v else st.vars k' }

/-- Moves the parsing cursor (`self.current_block = c`). -/
def withCurrent (c : Option Nat) (st : ParseState) : ParseState :=
  { st with current_block := c }

/-- Pushes a loop's break target (`self.loop_break.push_front`). -/
def pushBreak (b : Nat) (st : ParseState) : ParseState :=
  { st with loop_break := b :: st.loop_break }

/-- Pops the innermost break target. -/
def popBreak (st : ParseState) : ParseState :=
  { st with loop_break := st.loop_break.tail }

/-- Closes a still-open current block with an edge into `m` (the edge a
sub-scope's last block gets to the merge or continue block). -/
def closeInto (m : Nat) (st : ParseState) : ParseState :=
  match st.current_block with
  | some c => addEdge c m st
  | none => st

/-- Embedding of `Optimizer::parse_scope` (lib.rs lines 316-353) together with
the control-flow translation.  Declared scope locals are inserted into
`program.variables`; a `Slice` operator records its slice (aborting via `none`
when its output is not a `Slice` variable, the `unreachable!()` of lib.rs line
332); other operations are appended to the current block.  Modelled from the
spec: the branch cases follow the §4.1 translation rules, since
`parse_control_flow` is outside the source slice; needing a current block when
none is open is the parser's `unwrap` panic, modelled as `none`. -/
def parse_scope : CScope → ParseState → Option ParseState
  | .nil, st => some st
  | .declVar id depth item rest, st =>
    parse_scope rest (insertVariable (id, depth) item st)
  | .op o rest, st =>
    match st.current_block with
    | none => none
    | some cur =>
      match o with
      | .Operator (.Slice slice_op) =>
        match slice_op.out with
        | .Slice id depth _ =>
          let st1 := insertSlice (id, depth)
            ⟨slice_op.start, slice_op.end_, none, none⟩ st
          parse_scope rest (pushOp cur (.Operator (.Slice slice_op)) st1)
        | _ => none
      | other => parse_scope rest (pushOp cur other st)
  | .branchIf cond then_scope rest, st =>
    match st.current_block with
    | none => none
    | some cur =>
      let (thenB, st1) := addNode st
      let (mergeB, st2) := addNode st1
      let st3 := setTerm cur (.IfElse cond thenB mergeB mergeB) st2
      let st4 := addEdge cur mergeB (addEdge cur thenB st3)
      (parse_scope then_scope (withCurrent (some thenB) st4)).bind fun st5 =>
        parse_scope rest (withCurrent (some mergeB) (closeInto mergeB st5))
  | .branchIfElse cond then_scope else_scope rest, st =>
    match st.current_block with
    | none => none
    | some cur =>
      let (thenB, st1) := addNode st
      let (elseB, st2) := addNode st1
      let (mergeB, st3) := addNode st2
      let st4 := setTerm cur (.IfElse cond thenB elseB mergeB) st3
      let st5 := addEdge cur elseB (addEdge cur thenB st4)
      (parse_scope then_scope (withCurrent (some thenB) st5)).bind fun st6 =>
        (parse_scope else_scope (withCurrent (some elseB) (closeInto mergeB st6))).bind fun st8 =>
          parse_scope rest (withCurrent (some mergeB) (closeInto mergeB st8))
  | .branchLoop body rest, st =>
    match st.current_block with
    | none => none
    | some cur =>
      let (bodyB, st1) := addNode st
      let (contB, st2) := addNode st1
      let (mergeB, st3) := addNode st2
      let st4 := setTerm cur (.Loop bodyB contB mergeB) st3
      let st5 := addEdge cur bodyB st4
      (parse_scope body (withCurrent (some bodyB) (pushBreak mergeB st5))).bind fun st7 =>
        parse_scope rest
          (withCurrent (some mergeB) (popBreak (addEdge contB bodyB (closeInto contB st7))))
  | .branchRangeLoop ivar _start _end body rest, st =>
    match st.current_block with
    | none => none
    | some cur =>
      let (breakB, st1) := addNode st
      let (bodyB, st2) := addNode st1
      let (contB, st3) := addNode st2
      let (mergeB, st4) := addNode st3
      let st5 := setTerm cur (.Loop breakB contB mergeB) st4
      let st6 := addEdge cur breakB st5
      let st7 := pushOp breakB (.Operator (.Other 0 (some ivar))) st6
      let st8 := setTerm breakB (.Break ivar bodyB mergeB) st7
      let st9 := addEdge breakB mergeB (addEdge breakB bodyB st8)
      (parse_scope body (withCurrent (some bodyB) (pushBreak mergeB st9))).bind fun st11 =>
        parse_scope rest
          (withCurrent (some mergeB)
            (popBreak (addEdge contB breakB
              (pushOp contB (.Operator (.Other 1 (some ivar))) (closeInto contB st11)))))
  | .branchReturn rest, st =>
    match st.current_block with
    | none => none
    | some cur =>
      parse_scope rest (withCurrent none (addEdge cur st.ret st))
  | .procedure body rest, st =>
    (parse_scope body st).bind fun st1 => parse_scope rest st1

/-- The state `parse_graph` builds before parsing the scope: entry node
allocated and made root and current, return node allocated with the `Return`
terminator. -/
def initState : ParseState :=
  let (entry, st1) := addNode ParseState.initial
  let st2 := withCurrent (some entry) { st1 with root := entry }
  let (retB, st3) := addNode st2
  setTerm retB .Return { st3 with ret := retB }

/-- Embedding of `Optimizer::parse_graph` (lib.rs lines 196-206): allocate the
entry node and make it both root and current, allocate the return node and
give it the `Return` terminator, parse the scope, and close a still-open
current block with an edge to the return node. -/
def parse_graph (scope : CScope) : Option ParseState :=
  match parse_scope scope initState with
  | none => none
  | some st5 =>
    match st5.current_block with
    | some current_block => some (addEdge current_block st5.ret st5)
    | none => some st5

/-! ## `Optimizer::exempt_index_assign_locals` (lib.rs lines 261-272) -/

/-- The `(id, depth)` removed by one op in the exemption scan: the destination
of an `IndexAssign` when it is a `Local`. -/
def indexAssignDest : OperationIR → Option (Nat × Nat)
  | .Operator (.IndexAssign binop) =>
    match binop.out with
    | .Local id depth _ => some (id, depth)
    | _ => none
  | _ => none

/-- All `(id, depth)` keys removed by the exemption scan: every `Local`
destination of an `IndexAssign` in any block's ops list. -/
def indexAssignDests (st : ParseState) : List (Nat × Nat) :=
  (List.range st.nblocks).flatMap fun i => (st.blockOps i).filterMap indexAssignDest

/-- Removes a list of keys from `program.variables`, one `HashMap::remove` per
key. -/
def removeKeys : List (Nat × Nat) → (Nat × Nat → Option Item) → Nat × Nat → Option Item
  | [], m => m
  | k :: ks, m => removeKeys ks (fun k' => if k' = k then none else m k')

/-- Embedding of `Optimizer::exempt_index_assign_locals`: for every node and
every op in its ops list, remove from `program.variables` the `(id, depth)` of
a `Local` that is the `out` of an `IndexAssign`. -/
def exempt_index_assign_locals (st : ParseState) : ParseState :=
  { st with vars := removeKeys (indexAssignDests st) st.vars }

/-! ## Supporting lemmas for the counter model -/

/-- Reading the last cell of a store. -/
theorem getD_append_singleton (pre : List Nat) (m : Nat) :
    (pre ++ [m]).getD pre.length 0 = m := by
  induction pre with
  | nil => rfl
  | cons a l ih => simp [ih]

/-- Overwriting the last cell of a store. -/
theorem set_append_singleton (pre : List Nat) (m x : Nat) :
    (pre ++ [m]).set pre.length x = pre ++ [x] := by
  induction pre with
  | nil => rfl
  | cons a l ih => simp [ih]

/-- Prepending the first count to the shifted count sequence. -/
theorem range_map_shift (m n : Nat) :
    m :: (List.range n).map (fun k => m + 1 + k) = (List.range (n + 1)).map (fun k => m + k) := by
  rw [List.range_succ_eq_map]
  simp only [List.map_cons, Nat.add_zero, List.map_map]
  congr 1
  refine List.map_congr_left fun k _ => ?_
  simp only [Function.comp_apply]
  omega

/-- An `inc` through any handle aliasing the freshly allocated cell reads the
current count and bumps that cell. -/
theorem inc_aliased (pre : List Nat) (m : Nat) (h : AtomicCounter)
    (hh : h.inner = pre.length) :
    AtomicCounter.inc h ⟨pre ++ [m]⟩ = (m, ⟨pre ++ [m + 1]⟩) := by
  simp [AtomicCounter.inc, hh, getD_append_singleton, set_append_singleton]

/-- Running an interleaving of `inc`s through aliasing handles returns the
consecutive counts and leaves the cell at `m + n`. -/
theorem incRun_aliased (hs : List AtomicCounter) (pre : List Nat) (m : Nat)
    (hh : ∀ h ∈ hs, h.inner = pre.length) :
    incRun hs ⟨pre ++ [m]⟩ =
      ((List.range hs.length).map (fun k => m + k), ⟨pre ++ [m + hs.length]⟩) := by
  induction hs generalizing m with
  | nil => simp [incRun]
  | cons c cs ih =>
    have hc : c.inner = pre.length := hh c (by simp)
    have hrest : ∀ h ∈ cs, h.inner = pre.length := fun h hmem => hh h (by simp [hmem])
    have harith : m + 1 + cs.length = m + (cs.length + 1) := by omega
    simp only [incRun, inc_aliased pre m c hc, ih (m + 1) hrest, List.length_cons,
      harith, range_map_shift]

/-- `incN` through an aliasing handle adds `n` to the cell. -/
theorem incN_aliased (n : Nat) (pre : List Nat) (m : Nat) (h : AtomicCounter)
    (hh : h.inner = pre.length) :
    incN h n ⟨pre ++ [m]⟩ = ⟨pre ++ [m + n]⟩ := by
  induction n generalizing m with
  | zero => simp [incN]
  | succ n ih =>
    have harith : m + 1 + n = m + (n + 1) := by omega
    simp only [incN, inc_aliased pre m h hh, ih (m + 1), harith]

/-! ## Claim theorems: driver, counter, pass lists -/

/-- Claim C1: `run_opt` performs exactly parse, liveness, the pre-SSA pass
loop, the SSA exemption, the SSA transform, the post-SSA pass loop, then
`CopyPropagateArray` once; and it re-runs liveness, the SSA transform and the
post-SSA pass loop exactly once more if and only if `CopyPropagateArray`
recorded at least one change on its counter. -/
theorem run_opt_sequence (copyPropChanges : Nat) :
    run_opt_trace copyPropChanges =
      [.parseGraph, .analyzeLiveness, .applyPreSsaPasses, .exemptIndexAssignLocals,
       .ssaTransform, .applyPostSsaPasses, .copyPropagateArray] ++
      (if 0 < copyPropChanges
        then [.analyzeLiveness, .ssaTransform, .applyPostSsaPasses] else []) := by
  have h := incN_aliased copyPropChanges [] 0 ⟨0⟩ rfl
  simp only [List.nil_append, Nat.zero_add] at h
  simp only [run_opt_trace, AtomicCounter.new, AtomicCounter.clone, List.length_nil,
    List.nil_append, h, AtomicCounter.get]
  by_cases hn : 0 < copyPropChanges <;> simp [hn, List.getD]

/-- Claim C10: clones of an `AtomicCounter` share the same underlying count:
after any interleaving of `n` `inc` calls through the counter or its clones,
`get` returns `v + n` on every clone, and each `inc` returns the count
immediately before that increment. -/
theorem atomic_counter_sharing (v : Nat) (s0 : CounterStore)
    (hs : List AtomicCounter)
    (hclones : ∀ h ∈ hs, h = AtomicCounter.clone (AtomicCounter.new v s0).1) :
    (incRun hs (AtomicCounter.new v s0).2).1 =
      (List.range hs.length).map (fun k => v + k) ∧
    (∀ h, h = AtomicCounter.clone (AtomicCounter.new v s0).1 →
      AtomicCounter.get h (incRun hs (AtomicCounter.new v s0).2).2 = v + hs.length) := by
  have hh : ∀ h ∈ hs, h.inner = s0.cells.length := by
    intro h hmem
    rw [hclones h hmem]
    rfl
  have hrun := incRun_aliased hs s0.cells v hh
  constructor
  · show (incRun hs ⟨s0.cells ++ [v]⟩).1 = _
    rw [hrun]
  · intro h hclone
    show AtomicCounter.get h (incRun hs ⟨s0.cells ++ [v]⟩).2 = _
    rw [hrun, hclone]
    show (s0.cells ++ [v + hs.length]).getD s0.cells.length 0 = _
    exact getD_append_singleton _ _

/-- Witness for C10 at a concrete input: a store already holding one cell, a
counter created with value 2, and three increments through two distinct clone
handles. -/
theorem atomic_counter_sharing_witness :
    (∀ h ∈ [AtomicCounter.clone ⟨1⟩, AtomicCounter.clone (AtomicCounter.clone ⟨1⟩),
            AtomicCounter.clone ⟨1⟩],
        h = AtomicCounter.clone (AtomicCounter.new 2 ⟨[9]⟩).1) ∧
    (incRun [AtomicCounter.clone ⟨1⟩, AtomicCounter.clone (AtomicCounter.clone ⟨1⟩),
             AtomicCounter.clone ⟨1⟩] (AtomicCounter.new 2 ⟨[9]⟩).2).1 = [2, 3, 4] ∧
    AtomicCounter.get (AtomicCounter.clone ⟨1⟩)
      (incRun [AtomicCounter.clone ⟨1⟩, AtomicCounter.clone (AtomicCounter.clone ⟨1⟩),
               AtomicCounter.clone ⟨1⟩] (AtomicCounter.new 2 ⟨[9]⟩).2).2 = 5 := by
  have h := atomic_counter_sharing 2 ⟨[9]⟩
    [AtomicCounter.clone ⟨1⟩, AtomicCounter.clone (AtomicCounter.clone ⟨1⟩),
     AtomicCounter.clone ⟨1⟩] (by decide)
  refine ⟨by decide, ?_, ?_⟩
  · rw [h.1]
    decide
  · rw [h.2 (AtomicCounter.clone ⟨1⟩) (by decide)]
    decide

/-- Claim C5: the three range-analysis passes are in the post-SSA pass list if
and only if the execution mode is `Checked`; the other nine post-SSA passes are
in the list in both modes. -/
theorem checked_passes_iff (mode : ExecutionMode) :
    ((PassName.IntegerRangeAnalysis ∈ postSsaPassList mode ↔ mode = .Checked) ∧
     (PassName.FindConstSliceLen ∈ postSsaPassList mode ↔ mode = .Checked) ∧
     (PassName.InBoundsToUnchecked ∈ postSsaPassList mode ↔ mode = .Checked)) ∧
    (∀ p ∈ ([.InlineAssignments, .EliminateUnusedVariables, .ConstOperandSimplify,
             .MergeSameExpressions, .ConstEval, .RemoveIndexScalar,
             .EliminateConstBranches, .EliminateDeadBlocks, .CopyTransform] :
            List PassName),
       p ∈ postSsaPassList mode) := by
  cases mode <;> decide

/-- Claim C4 counterexample: the post-SSA pass list the code builds is not the
order the claim states; in particular `EliminateUnusedVariables` runs second
(before `EliminateDeadBlocks`), and `ConstEval` runs after
`MergeSameExpressions`. -/
theorem post_ssa_order_claim_false :
    postSsaPassList .Checked ≠
      [.InlineAssignments, .ConstOperandSimplify, .ConstEval, .MergeSameExpressions,
       .RemoveIndexScalar, .EliminateConstBranches, .EliminateDeadBlocks,
       .EliminateUnusedVariables, .CopyTransform, .IntegerRangeAnalysis,
       .FindConstSliceLen, .InBoundsToUnchecked] ∧
    ¬ (postSsaPassList .Checked).indexOf PassName.EliminateDeadBlocks <
        (postSsaPassList .Checked).indexOf PassName.EliminateUnusedVariables ∧
    ¬ (postSsaPassList .Checked).indexOf PassName.ConstEval <
        (postSsaPassList .Checked).indexOf PassName.MergeSameExpressions := by
  decide

/-- Claim C4 (amended): within one iteration of the post-SSA pass loop the
passes run in the fixed order the code declares: `InlineAssignments`,
`EliminateUnusedVariables`, `ConstOperandSimplify`, `MergeSameExpressions`,
`ConstEval`, `RemoveIndexScalar`, `EliminateConstBranches`,
`EliminateDeadBlocks`, `CopyTransform`, followed (in Checked mode) by
`IntegerRangeAnalysis`, `FindConstSliceLen`, `InBoundsToUnchecked`; in
particular `EliminateUnusedVariables` runs before `EliminateDeadBlocks` and
`ConstEval` runs after `MergeSameExpressions`. -/
theorem post_ssa_order :
    postSsaPassList .Checked =
      [.InlineAssignments, .EliminateUnusedVariables, .ConstOperandSimplify,
       .MergeSameExpressions, .ConstEval, .RemoveIndexScalar,
       .EliminateConstBranches, .EliminateDeadBlocks, .CopyTransform,
       .IntegerRangeAnalysis, .FindConstSliceLen, .InBoundsToUnchecked] ∧
    postSsaPassList .Unchecked =
      [.InlineAssignments, .EliminateUnusedVariables, .ConstOperandSimplify,
       .MergeSameExpressions, .ConstEval, .RemoveIndexScalar,
       .EliminateConstBranches, .EliminateDeadBlocks, .CopyTransform] ∧
    (postSsaPassList .Checked).indexOf PassName.EliminateUnusedVariables <
      (postSsaPassList .Checked).indexOf PassName.EliminateDeadBlocks ∧
    (postSsaPassList .Checked).indexOf PassName.MergeSameExpressions <
      (postSsaPassList .Checked).indexOf PassName.ConstEval := by
  decide

/-- Claim C9: `local_variable_id` returns `some (id, depth)` exactly for
`Local` variables whose element type is not atomic, and `none` for every other
variable (versioned, constants, globals, slices, matrices, positions, and
atomic-typed locals). -/
theorem local_variable_id_spec (v : Variable) :
    (∀ id depth, local_variable_id v = some (id, depth) ↔
      ∃ item, v = Variable.Local id depth item ∧ item.elem.is_atomic = false) ∧
    (local_variable_id v = none ↔
      ∀ id depth item, v = Variable.Local id depth item →
        item.elem.is_atomic = true) := by
  cases v with
  | Local id depth item =>
    by_cases h : item.elem.is_atomic
    · simp_all [local_variable_id]
    · simp_all [local_variable_id]
      aesop
  | _ => simp [local_variable_id]

/-! ## Claim theorems: the SSA exemption and the slice parsing step -/

/-- Removing a list of keys from a map blanks exactly those keys. -/
theorem removeKeys_spec (ks : List (Nat × Nat)) (m : Nat × Nat → Option Item)
    (k : Nat × Nat) :
    removeKeys ks m k = if k ∈ ks then none else m k := by
  induction ks generalizing m with
  | nil => simp [removeKeys]
  | cons a ks ih =>
    simp only [removeKeys, ih, List.mem_cons]
    by_cases h1 : k ∈ ks <;> by_cases h2 : k = a <;> simp [h1, h2]

/-- Characterization of the keys the exemption scan collects. -/
theorem indexAssignDest_eq_some (op : OperationIR) (k : Nat × Nat) :
    indexAssignDest op = some k ↔
      ∃ binop item, op = OperationIR.Operator (.IndexAssign binop) ∧
        binop.out = Variable.Local k.1 k.2 item := by
  obtain ⟨k1, k2⟩ := k
  cases op with
  | Operator o =>
    cases o with
    | IndexAssign binop =>
      cases hout : binop.out
      all_goals simp [indexAssignDest, hout]
    | Slice sl => simp [indexAssignDest]
    | Other c out => simp [indexAssignDest]
  | Metadata c => simp [indexAssignDest]
  | Synchronization c => simp [indexAssignDest]

/-- Claim C6: `exempt_index_assign_locals` removes from `program.variables`
exactly those `(id, depth)` keys that occur as the `Local` destination of some
`IndexAssign` operator in some block's ops list; every key never used as an
`IndexAssign` destination keeps its binding. -/
theorem exempt_index_assign_exact (st : ParseState) (k : Nat × Nat) :
    ((exempt_index_assign_locals st).vars k =
      if k ∈ indexAssignDests st then none else st.vars k) ∧
    (k ∈ indexAssignDests st ↔
      ∃ i, i < st.nblocks ∧ ∃ binop item,
        OperationIR.Operator (.IndexAssign binop) ∈ st.blockOps i ∧
        binop.out = Variable.Local k.1 k.2 item) := by
  constructor
  · exact removeKeys_spec _ _ _
  · simp only [indexAssignDests, List.mem_flatMap, List.mem_filterMap, List.mem_range]
    constructor
    · rintro ⟨i, hi, op, hop, hdest⟩
      obtain ⟨binop, item, rfl, hout⟩ := (indexAssignDest_eq_some op k).1 hdest
      exact ⟨i, hi, binop, item, hop, hout⟩
    · rintro ⟨i, hi, binop, item, hop, hout⟩
      exact ⟨i, hi, _, hop, (indexAssignDest_eq_some _ k).2 ⟨binop, item, rfl, hout⟩⟩

/-- Claim C7: when `parse_scope` meets a `Slice` operator whose output is a
`Slice` variable, it records `Slice { start, end, end_op: None, const_len:
None }` in `program.slices` under the output's `(id, depth)` and appends the
operation to the current block's ops, then continues; when the output is not a
`Slice` variable it aborts fatally (`unreachable!`, modelled as `none`). -/
theorem parse_scope_slice (slice_op : SliceOperator) (rest : CScope)
    (st : ParseState) (cur : Nat) (hcur : st.current_block = some cur) :
    (∀ id depth item, slice_op.out = Variable.Slice id depth item →
      parse_scope (.op (.Operator (.Slice slice_op)) rest) st =
        parse_scope rest
          (pushOp cur (.Operator (.Slice slice_op))
            (insertSlice (id, depth)
              ⟨slice_op.start, slice_op.end_, none, none⟩ st)) ∧
      (pushOp cur (.Operator (.Slice slice_op))
        (insertSlice (id, depth)
          ⟨slice_op.start, slice_op.end_, none, none⟩ st)).slices (id, depth) =
        some ⟨slice_op.start, slice_op.end_, none, none⟩ ∧
      (pushOp cur (.Operator (.Slice slice_op))
        (insertSlice (id, depth)
          ⟨slice_op.start, slice_op.end_, none, none⟩ st)).blockOps cur =
        st.blockOps cur ++ [.Operator (.Slice slice_op)]) ∧
    ((∀ id depth item, slice_op.out ≠ Variable.Slice id depth item) →
      parse_scope (.op (.Operator (.Slice slice_op)) rest) st = none) := by
  constructor
  · intro id depth item hout
    refine ⟨?_, by simp [pushOp, insertSlice], by simp [pushOp, insertSlice]⟩
    simp only [parse_scope, hcur, hout]
  · intro hnot
    simp only [parse_scope, hcur]

/-- Witness for C7: a concrete slice operation with a `Slice` output in a
state whose current block is block 0, and the same operation with a `Local`
output. -/
theorem parse_scope_slice_witness :
    ({ ParseState.initial with current_block := some 0 } : ParseState).current_block = some 0 ∧
    parse_scope
      (.op (.Operator (.Slice ⟨.GlobalInputArray 0 ⟨.Float, 4⟩, .ConstScalar 0 .UInt,
        .ConstScalar 2 .UInt, .Slice 3 1 ⟨.Float, 4⟩⟩)) .nil)
      { ParseState.initial with current_block := some 0 } =
      some (pushOp 0
        (.Operator (.Slice ⟨.GlobalInputArray 0 ⟨.Float, 4⟩, .ConstScalar 0 .UInt,
          .ConstScalar 2 .UInt, .Slice 3 1 ⟨.Float, 4⟩⟩))
        (insertSlice (3, 1) ⟨.ConstScalar 0 .UInt, .ConstScalar 2 .UInt, none, none⟩
          { ParseState.initial with current_block := some 0 })) ∧
    parse_scope
      (.op (.Operator (.Slice ⟨.GlobalInputArray 0 ⟨.Float, 4⟩, .ConstScalar 0 .UInt,
        .ConstScalar 2 .UInt, .Local 3 1 ⟨.Float, 4⟩⟩)) .nil)
      { ParseState.initial with current_block := some 0 } = none := by
  have h := parse_scope_slice
    ⟨.GlobalInputArray 0 ⟨.Float, 4⟩, .ConstScalar 0 .UInt,
      .ConstScalar 2 .UInt, .Slice 3 1 ⟨.Float, 4⟩⟩ .nil
    { ParseState.initial with current_block := some 0 } 0 rfl
  have h2 := parse_scope_slice
    ⟨.GlobalInputArray 0 ⟨.Float, 4⟩, .ConstScalar 0 .UInt,
      .ConstScalar 2 .UInt, .Local 3 1 ⟨.Float, 4⟩⟩ .nil
    { ParseState.initial with current_block := some 0 } 0 rfl
  refine ⟨rfl, ?_, ?_⟩
  · rw [(h.1 3 1 ⟨.Float, 4⟩ rfl).1]
    rfl
  · exact h2.2 (by intro id depth item h; exact Variable.noConfusion h)

/-! ## Claim theorem: termination of the pass loops -/

/-- A well-formed counter trace of a pass loop: every iteration except the
last observed at least one increment, and the last observed none. -/
def goodTrace : List Nat → Prop
  | [] => False
  | [c] => c = 0
  | c :: rest => 0 < c ∧ goodTrace rest

/-- The pass loop breaks, with a well-formed trace, whenever it has more fuel
than the measure of the state. -/
theorem passLoop_total {St : Type} (passes : List (Pass St)) (μ : St → Nat)
    (hmono : ∀ t, 0 < (iterOnce passes t).2 → μ (iterOnce passes t).1 < μ t) :
    ∀ fuel s, μ s < fuel →
      ∃ sf cs, passLoop passes fuel s = some (sf, cs) ∧
        goodTrace cs ∧ cs.length ≤ μ s + 1 := by
  intro fuel
  induction fuel with
  | zero => intro s hs; omega
  | succ f ih =>
    intro s hs
    by_cases hz : (iterOnce passes s).2 = 0
    · exact ⟨(iterOnce passes s).1, [0], by simp [passLoop, hz], by simp [goodTrace],
        by simp⟩
    · have hpos : 0 < (iterOnce passes s).2 := Nat.pos_of_ne_zero hz
      have hlt := hmono s hpos
      obtain ⟨sf, cs, hloop, hgood, hlen⟩ := ih (iterOnce passes s).1 (by omega)
      refine ⟨sf, (iterOnce passes s).2 :: cs, ?_, ?_, ?_⟩
      · simp [passLoop, hz, hloop]
      · rcases cs with _ | ⟨c, cs⟩
        · exact absurd hgood (by simp [goodTrace])
        · exact ⟨hpos, hgood⟩
      · simp only [List.length_cons]
        omega

/-- Claim C2: a pass loop of the shape shared by `apply_pre_ssa_passes` and
`apply_post_ssa_passes` terminates on every input whose passes satisfy the
spec's monotonicity provision: it runs another iteration exactly when the
previous iteration incremented the shared counter, stops at the first
iteration whose counter reads zero, and completes within `μ s + 1`
iterations. -/
theorem pass_loop_terminates {St : Type} (passes : List (Pass St)) (μ : St → Nat)
    (s : St)
    (hmono : ∀ t, 0 < (iterOnce passes t).2 → μ (iterOnce passes t).1 < μ t) :
    ∃ sf cs, passLoop passes (μ s + 1) s = some (sf, cs) ∧
      goodTrace cs ∧ cs.length ≤ μ s + 1 :=
  passLoop_total passes μ hmono (μ s + 1) s (by omega)

/-- Witness for C2: a single pass on `Nat` states that reports its own input
as its change count and decrements, with the identity measure, started at 2. -/
theorem pass_loop_terminates_witness :
    (∀ t : Nat,
        0 < (iterOnce [fun s => (s - 1, s)] t).2 →
        (iterOnce [fun s => (s - 1, s)] t).1 < t) ∧
    ∃ sf cs, passLoop [fun s => (s - 1, s)] (2 + 1) 2 = some (sf, cs) ∧
      goodTrace cs ∧ cs.length ≤ 2 + 1 := by
  constructor
  · intro t ht
    simp only [iterOnce, List.foldl_cons, List.foldl_nil] at *
    omega
  · exact pass_loop_terminates [fun s => (s - 1, s)] (fun s => s) 2
      (by intro t ht; simp only [iterOnce, List.foldl_cons, List.foldl_nil] at *; omega)

/-! ## Parser invariants (claim C3)

`Inv` collects the graph-shape facts the parser maintains between operation
boundaries: root and return node exist and are distinct, only the return node
carries the `Return` terminator, no edge enters the root or leaves the return
node, and the parsing cursor never sits on the return node. -/

theorem withCurrent_current (c : Option Nat) (st : ParseState) :
    (withCurrent c st).current_block = c := rfl

theorem addEdge_edges (src dst : Nat) (st : ParseState) :
    (addEdge src dst st).edges = st.edges ++ [(src, dst)] := rfl

theorem setTerm_term (i : Nat) (t : ControlFlow) (st : ParseState) (j : Nat) :
    (setTerm i t st).term j = if j = i then t else st.term j := rfl

theorem closeInto_root (m : Nat) (st : ParseState) :
    (closeInto m st).root = st.root := by
  unfold closeInto; cases st.current_block <;> rfl

theorem closeInto_ret (m : Nat) (st : ParseState) :
    (closeInto m st).ret = st.ret := by
  unfold closeInto; cases st.current_block <;> rfl

theorem closeInto_nblocks (m : Nat) (st : ParseState) :
    (closeInto m st).nblocks = st.nblocks := by
  unfold closeInto; cases st.current_block <;> rfl

theorem closeInto_term (m : Nat) (st : ParseState) :
    (closeInto m st).term = st.term := by
  unfold closeInto; cases st.current_block <;> rfl

theorem closeInto_current (m : Nat) (st : ParseState) :
    (closeInto m st).current_block = st.current_block := by
  unfold closeInto; cases h : st.current_block <;> simp [addEdge, h]

theorem closeInto_edges_mono (m : Nat) (st : ParseState) (e : Nat × Nat)
    (he : e ∈ st.edges) : e ∈ (closeInto m st).edges := by
  unfold closeInto; cases st.current_block with
  | none => exact he
  | some c => exact List.mem_append_left _ he

/-- The graph-shape invariant maintained by the parser. -/
structure Inv (st : ParseState) : Prop where
  root_lt : st.root < st.nblocks
  ret_lt : st.ret < st.nblocks
  root_ne_ret : st.root ≠ st.ret
  ret_term : st.term st.ret = ControlFlow.Return
  ret_unique : ∀ i, st.term i = ControlFlow.Return → i = st.ret
  edge_into_root : ∀ e ∈ st.edges, e.2 ≠ st.root
  edge_from_ret : ∀ e ∈ st.edges, e.1 ≠ st.ret
  cur_ne_ret : ∀ c, st.current_block = some c → c ≠ st.ret

theorem Inv.grow {st : ParseState} {n : Nat} (h : Inv st) (hn : st.nblocks ≤ n) :
    Inv { st with nblocks := n } :=
  ⟨Nat.lt_of_lt_of_le h.root_lt hn, Nat.lt_of_lt_of_le h.ret_lt hn, h.root_ne_ret,
   h.ret_term, h.ret_unique, h.edge_into_root, h.edge_from_ret, h.cur_ne_ret⟩

theorem Inv.setTerm' {st : ParseState} {i : Nat} {t : ControlFlow} (h : Inv st)
    (hi : i ≠ st.ret) (ht : t ≠ ControlFlow.Return) : Inv (setTerm i t st) := by
  refine ⟨h.root_lt, h.ret_lt, h.root_ne_ret, ?_, ?_, h.edge_into_root,
    h.edge_from_ret, h.cur_ne_ret⟩
  · have hne : st.ret ≠ i := fun hh => hi hh.symm
    show (setTerm i t st).term st.ret = ControlFlow.Return
    rw [setTerm_term, if_neg hne]
    exact h.ret_term
  · intro j hj
    show j = st.ret
    rw [setTerm_term] at hj
    by_cases hji : j = i
    · rw [if_pos hji] at hj
      exact absurd hj ht
    · rw [if_neg hji] at hj
      exact h.ret_unique j hj

theorem Inv.addEdge' {st : ParseState} {src dst : Nat} (h : Inv st)
    (hsrc : src ≠ st.ret) (hdst : dst ≠ st.root) : Inv (addEdge src dst st) := by
  refine ⟨h.root_lt, h.ret_lt, h.root_ne_ret, h.ret_term, h.ret_unique, ?_, ?_,
    h.cur_ne_ret⟩
  · intro e he
    rw [addEdge_edges] at he
    rcases List.mem_append.mp he with h1 | h1
    · exact h.edge_into_root e h1
    · rw [List.mem_singleton] at h1
      subst h1
      exact hdst
  · intro e he
    rw [addEdge_edges] at he
    rcases List.mem_append.mp he with h1 | h1
    · exact h.edge_from_ret e h1
    · rw [List.mem_singleton] at h1
      subst h1
      exact hsrc

theorem Inv.withCurrent_some {st : ParseState} {c : Nat} (h : Inv st)
    (hc : c ≠ st.ret) : Inv (withCurrent (some c) st) := by
  refine ⟨h.root_lt, h.ret_lt, h.root_ne_ret, h.ret_term, h.ret_unique,
    h.edge_into_root, h.edge_from_ret, ?_⟩
  intro c' hc'
  rw [withCurrent_current] at hc'
  injection hc' with hc'
  subst hc'
  exact hc

theorem Inv.withCurrent_none {st : ParseState} (h : Inv st) :
    Inv (withCurrent none st) := by
  refine ⟨h.root_lt, h.ret_lt, h.root_ne_ret, h.ret_term, h.ret_unique,
    h.edge_into_root, h.edge_from_ret, ?_⟩
  intro c' hc'
  rw [withCurrent_current] at hc'
  cases hc'

theorem Inv.pushOp' {st : ParseState} {i : Nat} {o : OperationIR} (h : Inv st) :
    Inv (pushOp i o st) :=
  ⟨h.root_lt, h.ret_lt, h.root_ne_ret, h.ret_term, h.ret_unique, h.edge_into_root,
   h.edge_from_ret, h.cur_ne_ret⟩

theorem Inv.pushBreak' {st : ParseState} {b : Nat} (h : Inv st) :
    Inv (pushBreak b st) :=
  ⟨h.root_lt, h.ret_lt, h.root_ne_ret, h.ret_term, h.ret_unique, h.edge_into_root,
   h.edge_from_ret, h.cur_ne_ret⟩

theorem Inv.popBreak' {st : ParseState} (h : Inv st) : Inv (popBreak st) :=
  ⟨h.root_lt, h.ret_lt, h.root_ne_ret, h.ret_term, h.ret_unique, h.edge_into_root,
   h.edge_from_ret, h.cur_ne_ret⟩

theorem Inv.insertVariable' {st : ParseState} {k : Nat × Nat} {v : Item}
    (h : Inv st) : Inv (insertVariable k v st) :=
  ⟨h.root_lt, h.ret_lt, h.root_ne_ret, h.ret_term, h.ret_unique, h.edge_into_root,
   h.edge_from_ret, h.cur_ne_ret⟩

theorem Inv.closeInto' {st : ParseState} {m : Nat} (h : Inv st)
    (hm : m ≠ st.root) : Inv (closeInto m st) := by
  unfold closeInto
  cases hcb : st.current_block with
  | none => exact h
  | some c => exact h.addEdge' (h.cur_ne_ret c hcb) hm

/-- What one completed `parse_scope` call guarantees about the state it
returns, relative to its input state. -/
structure StepOk (st st' : ParseState) : Prop where
  inv : Inv st'
  root_eq : st'.root = st.root
  ret_eq : st'.ret = st.ret
  nblocks_le : st.nblocks ≤ st'.nblocks
  edges_mono : ∀ e ∈ st.edges, e ∈ st'.edges

theorem StepOk.refl_of {st : ParseState} (h : Inv st) : StepOk st st :=
  ⟨h, rfl, rfl, Nat.le_refl _, fun _ he => he⟩

theorem StepOk.trans {st st1 st2 : ParseState} (h1 : StepOk st st1)
    (h2 : StepOk st1 st2) : StepOk st st2 :=
  ⟨h2.inv, h2.root_eq.trans h1.root_eq, h2.ret_eq.trans h1.ret_eq,
   Nat.le_trans h1.nblocks_le h2.nblocks_le,
   fun e he => h2.edges_mono e (h1.edges_mono e he)⟩

/-! ## Unfolding lemmas for successful `parse_scope` calls -/

theorem parse_scope_declVar_elim {id depth : Nat} {item : Item} {rest : CScope}
    {st st' : ParseState}
    (h : parse_scope (.declVar id depth item rest) st = some st') :
    parse_scope rest (insertVariable (id, depth) item st) = some st' := h

theorem parse_scope_op_elim {o : OperationIR} {rest : CScope} {st st' : ParseState}
    (h : parse_scope (.op o rest) st = some st') :
    ∃ st1, st1.nblocks = st.nblocks ∧ st1.term = st.term ∧ st1.edges = st.edges ∧
      st1.root = st.root ∧ st1.ret = st.ret ∧
      st1.current_block = st.current_block ∧
      parse_scope rest st1 = some st' := by
  cases hcb : st.current_block with
  | none =>
    simp only [parse_scope, hcb] at h
    exact Option.noConfusion h
  | some cur =>
    cases o with
    | Operator op =>
      cases op with
      | Slice sl =>
        cases hout : sl.out with
        | Slice id depth item =>
          simp only [parse_scope, hcb, hout] at h
          exact ⟨pushOp cur (.Operator (.Slice sl))
            (insertSlice (id, depth) ⟨sl.start, sl.end_, none, none⟩ st),
            rfl, rfl, rfl, rfl, rfl, hcb, h⟩
        | Local id depth item =>
          simp only [parse_scope, hcb, hout] at h
          exact Option.noConfusion h
        | Versioned id depth item version =>
          simp only [parse_scope, hcb, hout] at h
          exact Option.noConfusion h
        | ConstScalar v e =>
          simp only [parse_scope, hcb, hout] at h
          exact Option.noConfusion h
        | GlobalScalar i e =>
          simp only [parse_scope, hcb, hout] at h
          exact Option.noConfusion h
        | GlobalInputArray i it =>
          simp only [parse_scope, hcb, hout] at h
          exact Option.noConfusion h
        | GlobalOutputArray i it =>
          simp only [parse_scope, hcb, hout] at h
          exact Option.noConfusion h
        | Matrix i d =>
          simp only [parse_scope, hcb, hout] at h
          exact Option.noConfusion h
        | Position d =>
          simp only [parse_scope, hcb, hout] at h
          exact Option.noConfusion h
      | IndexAssign b =>
        simp only [parse_scope, hcb] at h
        exact ⟨pushOp cur (.Operator (.IndexAssign b)) st,
          rfl, rfl, rfl, rfl, rfl, hcb, h⟩
      | Other c out =>
        simp only [parse_scope, hcb] at h
        exact ⟨pushOp cur (.Operator (.Other c out)) st,
          rfl, rfl, rfl, rfl, rfl, hcb, h⟩
    | Metadata c =>
      simp only [parse_scope, hcb] at h
      exact ⟨pushOp cur (.Metadata c) st, rfl, rfl, rfl, rfl, rfl, hcb, h⟩
    | Synchronization c =>
      simp only [parse_scope, hcb] at h
      exact ⟨pushOp cur (.Synchronization c) st, rfl, rfl, rfl, rfl, rfl, hcb, h⟩

theorem parse_scope_branchIf_elim {cond : Variable} {ts rest : CScope}
    {st st' : ParseState}
    (h : parse_scope (.branchIf cond ts rest) st = some st') :
    ∃ cur st5,
      st.current_block = some cur ∧
      parse_scope ts (withCurrent (some st.nblocks)
        (addEdge cur (st.nblocks + 1) (addEdge cur st.nblocks
          (setTerm cur (.IfElse cond st.nblocks (st.nblocks + 1) (st.nblocks + 1))
            { st with nblocks := st.nblocks + 2 })))) = some st5 ∧
      parse_scope rest (withCurrent (some (st.nblocks + 1))
        (closeInto (st.nblocks + 1) st5)) = some st' := by
  cases hcb : st.current_block with
  | none =>
    simp only [parse_scope, hcb] at h
    exact Option.noConfusion h
  | some cur =>
    simp only [parse_scope, hcb, Option.bind_eq_some] at h
    obtain ⟨st5, h1, h2⟩ := h
    exact ⟨cur, st5, rfl, h1, h2⟩

theorem parse_scope_branchIfElse_elim {cond : Variable} {ts es rest : CScope}
    {st st' : ParseState}
    (h : parse_scope (.branchIfElse cond ts es rest) st = some st') :
    ∃ cur st6 st8,
      st.current_block = some cur ∧
      parse_scope ts (withCurrent (some st.nblocks)
        (addEdge cur (st.nblocks + 1) (addEdge cur st.nblocks
          (setTerm cur (.IfElse cond st.nblocks (st.nblocks + 1) (st.nblocks + 2))
            { st with nblocks := st.nblocks + 3 })))) = some st6 ∧
      parse_scope es (withCurrent (some (st.nblocks + 1))
        (closeInto (st.nblocks + 2) st6)) = some st8 ∧
      parse_scope rest (withCurrent (some (st.nblocks + 2))
        (closeInto (st.nblocks + 2) st8)) = some st' := by
  cases hcb : st.current_block with
  | none =>
    simp only [parse_scope, hcb] at h
    exact Option.noConfusion h
  | some cur =>
    simp only [parse_scope, hcb, Option.bind_eq_some] at h
    obtain ⟨st6, h1, st8, h2, h3⟩ := h
    exact ⟨cur, st6, st8, rfl, h1, h2, h3⟩

theorem parse_scope_branchLoop_elim {body rest : CScope} {st st' : ParseState}
    (h : parse_scope (.branchLoop body rest) st = some st') :
    ∃ cur st7,
      st.current_block = some cur ∧
      parse_scope body (withCurrent (some st.nblocks)
        (pushBreak (st.nblocks + 2) (addEdge cur st.nblocks
          (setTerm cur (.Loop st.nblocks (st.nblocks + 1) (st.nblocks + 2))
            { st with nblocks := st.nblocks + 3 })))) = some st7 ∧
      parse_scope rest (withCurrent (some (st.nblocks + 2))
        (popBreak (addEdge (st.nblocks + 1) st.nblocks
          (closeInto (st.nblocks + 1) st7)))) = some st' := by
  cases hcb : st.current_block with
  | none =>
    simp only [parse_scope, hcb] at h
    exact Option.noConfusion h
  | some cur =>
    simp only [parse_scope, hcb, Option.bind_eq_some] at h
    obtain ⟨st7, h1, h2⟩ := h
    exact ⟨cur, st7, rfl, h1, h2⟩

theorem parse_scope_branchRangeLoop_elim {ivar sv ev : Variable} {body rest : CScope}
    {st st' : ParseState}
    (h : parse_scope (.branchRangeLoop ivar sv ev body rest) st = some st') :
    ∃ cur st11,
      st.current_block = some cur ∧
      parse_scope body (withCurrent (some (st.nblocks + 1))
        (pushBreak (st.nblocks + 1 + 1 + 1)
          (addEdge st.nblocks (st.nblocks + 1 + 1 + 1) (addEdge st.nblocks (st.nblocks + 1)
            (setTerm st.nblocks (.Break ivar (st.nblocks + 1) (st.nblocks + 1 + 1 + 1))
              (pushOp st.nblocks (.Operator (.Other 0 (some ivar)))
                (addEdge cur st.nblocks
                  (setTerm cur (.Loop st.nblocks (st.nblocks + 1 + 1) (st.nblocks + 1 + 1 + 1))
                    { st with nblocks := st.nblocks + 1 + 1 + 1 + 1,
                              current_block := some cur })))))))) = some st11 ∧
      parse_scope rest (withCurrent (some (st.nblocks + 1 + 1 + 1))
        (popBreak (addEdge (st.nblocks + 1 + 1) st.nblocks
          (pushOp (st.nblocks + 1 + 1) (.Operator (.Other 1 (some ivar)))
            (closeInto (st.nblocks + 1 + 1) st11))))) = some st' := by
  cases hcb : st.current_block with
  | none =>
    simp only [parse_scope, hcb] at h
    exact Option.noConfusion h
  | some cur =>
    simp only [parse_scope, hcb, Option.bind_eq_some, addNode] at h
    obtain ⟨st11, h1, h2⟩ := h
    exact ⟨cur, st11, rfl, h1, h2⟩

theorem parse_scope_branchReturn_elim {rest : CScope} {st st' : ParseState}
    (h : parse_scope (.branchReturn rest) st = some st') :
    ∃ cur,
      st.current_block = some cur ∧
      parse_scope rest (withCurrent none (addEdge cur st.ret st)) = some st' := by
  cases hcb : st.current_block with
  | none =>
    simp only [parse_scope, hcb] at h
    exact Option.noConfusion h
  | some cur =>
    simp only [parse_scope, hcb] at h
    exact ⟨cur, rfl, h⟩

theorem parse_scope_procedure_elim {body rest : CScope} {st st' : ParseState}
    (h : parse_scope (.procedure body rest) st = some st') :
    ∃ st1, parse_scope body st = some st1 ∧ parse_scope rest st1 = some st' := by
  simp only [parse_scope, Option.bind_eq_some] at h
  exact h

/-- Transport of the invariant across a state agreeing on every
invariant-relevant field. -/
theorem inv_of_core_eq {st st1 : ParseState} (hnb : st1.nblocks = st.nblocks)
    (hterm : st1.term = st.term) (hedges : st1.edges = st.edges)
    (hroot : st1.root = st.root) (hret : st1.ret = st.ret)
    (hcur : st1.current_block = st.current_block) (h : Inv st) : Inv st1 := by
  refine ⟨?_, ?_, ?_, ?_, ?_, ?_, ?_, ?_⟩
  · rw [hroot, hnb]; exact h.root_lt
  · rw [hret, hnb]; exact h.ret_lt
  · rw [hroot, hret]; exact h.root_ne_ret
  · rw [hterm, hret]; exact h.ret_term
  · intro i hi
    rw [hterm] at hi
    rw [hret]
    exact h.ret_unique i hi
  · intro e he
    rw [hedges] at he
    rw [hroot]
    exact h.edge_into_root e he
  · intro e he
    rw [hedges] at he
    rw [hret]
    exact h.edge_from_ret e he
  · intro c hc
    rw [hcur] at hc
    rw [hret]
    exact h.cur_ne_ret c hc

/-- The parser maintains `Inv` across every successful `parse_scope` call, and
never moves the root or return node, never shrinks the graph, and never drops
an edge. -/
theorem parse_scope_ok (sc : CScope) :
    ∀ st st', Inv st → parse_scope sc st = some st' → StepOk st st' := by
  induction sc with
  | nil =>
    intro st st' hInv h
    simp only [parse_scope, Option.some.injEq] at h
    subst h
    exact StepOk.refl_of hInv
  | declVar id depth item rest ih =>
    intro st st' hInv h
    have S := ih _ _ hInv.insertVariable' (parse_scope_declVar_elim h)
    exact ⟨S.inv, S.root_eq, S.ret_eq, S.nblocks_le, S.edges_mono⟩
  | op o rest ih =>
    intro st st' hInv h
    obtain ⟨st1, hnb, hterm, hedges, hroot, hret, hcur, h1⟩ := parse_scope_op_elim h
    have S := ih _ _ (inv_of_core_eq hnb hterm hedges hroot hret hcur hInv) h1
    refine ⟨S.inv, ?_, ?_, ?_, ?_⟩
    · rw [S.root_eq, hroot]
    · rw [S.ret_eq, hret]
    · rw [← hnb]; exact S.nblocks_le
    · intro e he
      exact S.edges_mono e (by rw [hedges]; exact he)
  | branchIf cond ts rest ih_ts ih_rest =>
    intro st st' hInv hp
    obtain ⟨cur, st5, hcb, hres, hrest⟩ := parse_scope_branchIf_elim hp
    have hcur_ne : cur ≠ st.ret := hInv.cur_ne_ret cur hcb
    have hrootlt := hInv.root_lt
    have hretlt := hInv.ret_lt
    have hInvB : Inv (withCurrent (some st.nblocks)
        (addEdge cur (st.nblocks + 1) (addEdge cur st.nblocks
          (setTerm cur (.IfElse cond st.nblocks (st.nblocks + 1) (st.nblocks + 1))
            { st with nblocks := st.nblocks + 2 })))) := by
      refine Inv.withCurrent_some ?_ ?_
      · refine Inv.addEdge' ?_ ?_ ?_
        · refine Inv.addEdge' ?_ ?_ ?_
          · exact Inv.setTerm' (hInv.grow (by omega)) hcur_ne
              (fun hh => ControlFlow.noConfusion hh)
          · show cur ≠ st.ret
            exact hcur_ne
          · show st.nblocks ≠ st.root
            omega
        · show cur ≠ st.ret
          exact hcur_ne
        · show st.nblocks + 1 ≠ st.root
          omega
      · show st.nblocks ≠ st.ret
        omega
    have S1 := ih_ts _ _ hInvB hres
    have hroot5 : st5.root = st.root := S1.root_eq
    have hret5 : st5.ret = st.ret := S1.ret_eq
    have hnb5 : st.nblocks + 2 ≤ st5.nblocks := S1.nblocks_le
    have hInvC : Inv (withCurrent (some (st.nblocks + 1))
        (closeInto (st.nblocks + 1) st5)) := by
      refine Inv.withCurrent_some (Inv.closeInto' S1.inv ?_) ?_
      · rw [hroot5]; omega
      · rw [closeInto_ret, hret5]; omega
    have S2 := ih_rest _ _ hInvC hrest
    have hCroot : st'.root = (closeInto (st.nblocks + 1) st5).root := S2.root_eq
    rw [closeInto_root] at hCroot
    have hCret : st'.ret = (closeInto (st.nblocks + 1) st5).ret := S2.ret_eq
    rw [closeInto_ret] at hCret
    have hCnb : (closeInto (st.nblocks + 1) st5).nblocks ≤ st'.nblocks := S2.nblocks_le
    rw [closeInto_nblocks] at hCnb
    refine ⟨S2.inv, ?_, ?_, ?_, ?_⟩
    · rw [hCroot, hroot5]
    · rw [hCret, hret5]
    · omega
    · intro e he
      have h1 : e ∈ st5.edges :=
        S1.edges_mono e (List.mem_append_left _ (List.mem_append_left _ he))
      exact S2.edges_mono e (closeInto_edges_mono _ _ _ h1)
  | branchIfElse cond ts es rest ih_ts ih_es ih_rest =>
    intro st st' hInv hp
    obtain ⟨cur, st6, st8, hcb, hres, hres2, hrest⟩ := parse_scope_branchIfElse_elim hp
    have hcur_ne : cur ≠ st.ret := hInv.cur_ne_ret cur hcb
    have hrootlt := hInv.root_lt
    have hretlt := hInv.ret_lt
    have hInvB : Inv (withCurrent (some st.nblocks)
        (addEdge cur (st.nblocks + 1) (addEdge cur st.nblocks
          (setTerm cur (.IfElse cond st.nblocks (st.nblocks + 1) (st.nblocks + 2))
            { st with nblocks := st.nblocks + 3 })))) := by
      refine Inv.withCurrent_some ?_ ?_
      · refine Inv.addEdge' ?_ ?_ ?_
        · refine Inv.addEdge' ?_ ?_ ?_
          · exact Inv.setTerm' (hInv.grow (by omega)) hcur_ne
              (fun hh => ControlFlow.noConfusion hh)
          · show cur ≠ st.ret
            exact hcur_ne
          · show st.nblocks ≠ st.root
            omega
        · show cur ≠ st.ret
          exact hcur_ne
        · show st.nblocks + 1 ≠ st.root
          omega
      · show st.nblocks ≠ st.ret
        omega
    have S1 := ih_ts _ _ hInvB hres
    have hroot6 : st6.root = st.root := S1.root_eq
    have hret6 : st6.ret = st.ret := S1.ret_eq
    have hnb6 : st.nblocks + 3 ≤ st6.nblocks := S1.nblocks_le
    have hInvC : Inv (withCurrent (some (st.nblocks + 1))
        (closeInto (st.nblocks + 2) st6)) := by
      refine Inv.withCurrent_some (Inv.closeInto' S1.inv ?_) ?_
      · rw [hroot6]; omega
      · rw [closeInto_ret, hret6]; omega
    have S2 := ih_es _ _ hInvC hres2
    have hroot8 : st8.root = (closeInto (st.nblocks + 2) st6).root := S2.root_eq
    rw [closeInto_root, hroot6] at hroot8
    have hret8 : st8.ret = (closeInto (st.nblocks + 2) st6).ret := S2.ret_eq
    rw [closeInto_ret, hret6] at hret8
    have hnb8 : (closeInto (st.nblocks + 2) st6).nblocks ≤ st8.nblocks := S2.nblocks_le
    rw [closeInto_nblocks] at hnb8
    have hInvD : Inv (withCurrent (some (st.nblocks + 2))
        (closeInto (st.nblocks + 2) st8)) := by
      refine Inv.withCurrent_some (Inv.closeInto' S2.inv ?_) ?_
      · rw [hroot8]; omega
      · rw [closeInto_ret, hret8]; omega
    have S3 := ih_rest _ _ hInvD hrest
    have hDroot : st'.root = (closeInto (st.nblocks + 2) st8).root := S3.root_eq
    rw [closeInto_root, hroot8] at hDroot
    have hDret : st'.ret = (closeInto (st.nblocks + 2) st8).ret := S3.ret_eq
    rw [closeInto_ret, hret8] at hDret
    have hDnb : (closeInto (st.nblocks + 2) st8).nblocks ≤ st'.nblocks := S3.nblocks_le
    rw [closeInto_nblocks] at hDnb
    refine ⟨S3.inv, hDroot, hDret, by omega, ?_⟩
    intro e he
    have h1 : e ∈ st6.edges :=
      S1.edges_mono e (List.mem_append_left _ (List.mem_append_left _ he))
    have h2 : e ∈ st8.edges := S2.edges_mono e (closeInto_edges_mono _ _ _ h1)
    exact S3.edges_mono e (closeInto_edges_mono _ _ _ h2)
  | branchLoop body rest ih_body ih_rest =>
    intro st st' hInv hp
    obtain ⟨cur, st7, hcb, hres, hrest⟩ := parse_scope_branchLoop_elim hp
    have hcur_ne : cur ≠ st.ret := hInv.cur_ne_ret cur hcb
    have hrootlt := hInv.root_lt
    have hretlt := hInv.ret_lt
    have hInvB : Inv (withCurrent (some st.nblocks)
        (pushBreak (st.nblocks + 2) (addEdge cur st.nblocks
          (setTerm cur (.Loop st.nblocks (st.nblocks + 1) (st.nblocks + 2))
            { st with nblocks := st.nblocks + 3 })))) := by
      refine Inv.withCurrent_some (Inv.pushBreak' ?_) ?_
      · refine Inv.addEdge' ?_ ?_ ?_
        · exact Inv.setTerm' (hInv.grow (by omega)) hcur_ne
            (fun hh => ControlFlow.noConfusion hh)
        · show cur ≠ st.ret
          exact hcur_ne
        · show st.nblocks ≠ st.root
          omega
      · show st.nblocks ≠ st.ret
        omega
    have S1 := ih_body _ _ hInvB hres
    have hroot7 : st7.root = st.root := S1.root_eq
    have hret7 : st7.ret = st.ret := S1.ret_eq
    have hnb7 : st.nblocks + 3 ≤ st7.nblocks := S1.nblocks_le
    have hInvC : Inv (withCurrent (some (st.nblocks + 2))
        (popBreak (addEdge (st.nblocks + 1) st.nblocks
          (closeInto (st.nblocks + 1) st7)))) := by
      refine Inv.withCurrent_some (Inv.popBreak' (Inv.addEdge' (Inv.closeInto' S1.inv ?_) ?_ ?_)) ?_
      · rw [hroot7]; omega
      · show st.nblocks + 1 ≠ (closeInto (st.nblocks + 1) st7).ret
        rw [closeInto_ret, hret7]; omega
      · show st.nblocks ≠ (closeInto (st.nblocks + 1) st7).root
        rw [closeInto_root, hroot7]; omega
      · show st.nblocks + 2 ≠ (closeInto (st.nblocks + 1) st7).ret
        rw [closeInto_ret, hret7]; omega
    have S2 := ih_rest _ _ hInvC hrest
    have hCroot : st'.root = (closeInto (st.nblocks + 1) st7).root := S2.root_eq
    rw [closeInto_root, hroot7] at hCroot
    have hCret : st'.ret = (closeInto (st.nblocks + 1) st7).ret := S2.ret_eq
    rw [closeInto_ret, hret7] at hCret
    have hCnb : (closeInto (st.nblocks + 1) st7).nblocks ≤ st'.nblocks := S2.nblocks_le
    rw [closeInto_nblocks] at hCnb
    refine ⟨S2.inv, hCroot, hCret, by omega, ?_⟩
    intro e he
    have h1 : e ∈ st7.edges := S1.edges_mono e (List.mem_append_left _ he)
    have h2 : e ∈ (closeInto (st.nblocks + 1) st7).edges :=
      closeInto_edges_mono _ _ _ h1
    exact S2.edges_mono e (List.mem_append_left _ h2)
  | branchRangeLoop ivar sv ev body rest ih_body ih_rest =>
    intro st st' hInv hp
    obtain ⟨cur, st11, hcb, hres, hrest⟩ := parse_scope_branchRangeLoop_elim hp
    have hcur_ne : cur ≠ st.ret := hInv.cur_ne_ret cur hcb
    have hrootlt := hInv.root_lt
    have hretlt := hInv.ret_lt
    have hInvR : Inv { st with nblocks := st.nblocks + 1 + 1 + 1 + 1,
                               current_block := some cur } := by
      refine ⟨?_, ?_, hInv.root_ne_ret, hInv.ret_term, hInv.ret_unique,
        hInv.edge_into_root, hInv.edge_from_ret, ?_⟩
      · show st.root < st.nblocks + 1 + 1 + 1 + 1
        omega
      · show st.ret < st.nblocks + 1 + 1 + 1 + 1
        omega
      · intro c hc
        injection hc with hc
        subst hc
        exact hcur_ne
    have hInvB : Inv (withCurrent (some (st.nblocks + 1))
        (pushBreak (st.nblocks + 1 + 1 + 1)
          (addEdge st.nblocks (st.nblocks + 1 + 1 + 1) (addEdge st.nblocks (st.nblocks + 1)
            (setTerm st.nblocks (.Break ivar (st.nblocks + 1) (st.nblocks + 1 + 1 + 1))
              (pushOp st.nblocks (.Operator (.Other 0 (some ivar)))
                (addEdge cur st.nblocks
                  (setTerm cur (.Loop st.nblocks (st.nblocks + 1 + 1) (st.nblocks + 1 + 1 + 1))
                    { st with nblocks := st.nblocks + 1 + 1 + 1 + 1,
                              current_block := some cur })))))))) := by
      refine Inv.withCurrent_some (Inv.pushBreak' ?_) ?_
      · refine Inv.addEdge' ?_ ?_ ?_
        · refine Inv.addEdge' ?_ ?_ ?_
          · refine Inv.setTerm' (Inv.pushOp' ?_) ?_ ?_
            · refine Inv.addEdge' ?_ ?_ ?_
              · exact Inv.setTerm' hInvR hcur_ne (fun hh => ControlFlow.noConfusion hh)
              · show cur ≠ st.ret
                exact hcur_ne
              · show st.nblocks ≠ st.root
                omega
            · show st.nblocks ≠ st.ret
              omega
            · exact fun hh => ControlFlow.noConfusion hh
          · show st.nblocks ≠ st.ret
            omega
          · show st.nblocks + 1 ≠ st.root
            omega
        · show st.nblocks ≠ st.ret
          omega
        · show st.nblocks + 1 + 1 + 1 ≠ st.root
          omega
      · show st.nblocks + 1 ≠ st.ret
        omega
    have S1 := ih_body _ _ hInvB hres
    have hroot11 : st11.root = st.root := S1.root_eq
    have hret11 : st11.ret = st.ret := S1.ret_eq
    have hnb11 : st.nblocks + 1 + 1 + 1 + 1 ≤ st11.nblocks := S1.nblocks_le
    have hInvC : Inv (withCurrent (some (st.nblocks + 1 + 1 + 1))
        (popBreak (addEdge (st.nblocks + 1 + 1) st.nblocks
          (pushOp (st.nblocks + 1 + 1) (.Operator (.Other 1 (some ivar)))
            (closeInto (st.nblocks + 1 + 1) st11))))) := by
      refine Inv.withCurrent_some
        (Inv.popBreak' (Inv.addEdge' (Inv.pushOp' (Inv.closeInto' S1.inv ?_)) ?_ ?_)) ?_
      · rw [hroot11]; omega
      · show st.nblocks + 1 + 1 ≠ (closeInto (st.nblocks + 1 + 1) st11).ret
        rw [closeInto_ret, hret11]; omega
      · show st.nblocks ≠ (closeInto (st.nblocks + 1 + 1) st11).root
        rw [closeInto_root, hroot11]; omega
      · show st.nblocks + 1 + 1 + 1 ≠ (closeInto (st.nblocks + 1 + 1) st11).ret
        rw [closeInto_ret, hret11]; omega
    have S2 := ih_rest _ _ hInvC hrest
    have hCroot : st'.root = (closeInto (st.nblocks + 1 + 1) st11).root := S2.root_eq
    rw [closeInto_root, hroot11] at hCroot
    have hCret : st'.ret = (closeInto (st.nblocks + 1 + 1) st11).ret := S2.ret_eq
    rw [closeInto_ret, hret11] at hCret
    have hCnb : (closeInto (st.nblocks + 1 + 1) st11).nblocks ≤ st'.nblocks := S2.nblocks_le
    rw [closeInto_nblocks] at hCnb
    refine ⟨S2.inv, hCroot, hCret, by omega, ?_⟩
    intro e he
    have h1 : e ∈ st11.edges :=
      S1.edges_mono e (List.mem_append_left _ (List.mem_append_left _
        (List.mem_append_left _ he)))
    have h2 : e ∈ (closeInto (st.nblocks + 1 + 1) st11).edges :=
      closeInto_edges_mono _ _ _ h1
    exact S2.edges_mono e (List.mem_append_left _ h2)
  | branchReturn rest ih =>
    intro st st' hInv hp
    obtain ⟨cur, hcb, h1⟩ := parse_scope_branchReturn_elim hp
    have hInvB : Inv (withCurrent none (addEdge cur st.ret st)) :=
      Inv.withCurrent_none (Inv.addEdge' hInv (hInv.cur_ne_ret cur hcb)
        (fun hh => hInv.root_ne_ret hh.symm))
    have S := ih _ _ hInvB h1
    refine ⟨S.inv, S.root_eq, S.ret_eq, S.nblocks_le, ?_⟩
    intro e he
    exact S.edges_mono e (List.mem_append_left _ he)
  | procedure body rest ih_body ih_rest =>
    intro st st' hInv hp
    obtain ⟨st1, h1, h2⟩ := parse_scope_procedure_elim hp
    exact (ih_body _ _ hInv h1).trans (ih_rest _ _ (ih_body _ _ hInv h1).inv h2)

/-- The state `parse_graph` hands to `parse_scope` satisfies the invariant:
two blocks, block 0 the root and current block, block 1 the return node with
the only `Return` terminator, and no edges yet. -/
theorem inv_initState : Inv initState := by
  refine ⟨?_, ?_, ?_, rfl, ?_, ?_, ?_, ?_⟩
  · show (0 : Nat) < 2
    omega
  · show (1 : Nat) < 2
    omega
  · show (0 : Nat) ≠ 1
    omega
  · intro i hi
    show i = 1
    by_cases h1 : i = 1
    · exact h1
    · have hnone : initState.term i = ControlFlow.None := by
        show (if i = 1 then ControlFlow.Return else ControlFlow.None) = ControlFlow.None
        rw [if_neg h1]
      rw [hnone] at hi
      exact ControlFlow.noConfusion hi
  · intro e he
    exact absurd he (List.not_mem_nil e)
  · intro e he
    exact absurd he (List.not_mem_nil e)
  · intro c hc
    have : (some 0 : Option Nat) = some c := hc
    injection this with this
    subst this
    show (0 : Nat) ≠ 1
    omega

/-- Claim C3: every CFG `parse_graph` produces has one root and one distinct
return node; the return node is the only block whose terminator is
`ControlFlow::Return`; no edge enters the root and none leaves the return
node; and when parsing ends with the current block still open, that block gets
an edge to the return node. -/
theorem parse_graph_root_ret (scope : CScope) (st : ParseState)
    (h : parse_graph scope = some st) :
    st.root ≠ st.ret ∧
    st.term st.ret = ControlFlow.Return ∧
    (∀ i, st.term i = ControlFlow.Return → i = st.ret) ∧
    (∀ e ∈ st.edges, e.2 ≠ st.root) ∧
    (∀ e ∈ st.edges, e.1 ≠ st.ret) ∧
    (∀ st5, parse_scope scope initState = some st5 →
      ∀ c, st5.current_block = some c → (c, st.ret) ∈ st.edges) := by
  unfold parse_graph at h
  cases hps : parse_scope scope initState with
  | none =>
    rw [hps] at h
    exact Option.noConfusion h
  | some st5 =>
    rw [hps] at h
    have h2 : (match st5.current_block with
      | some current_block => some (addEdge current_block st5.ret st5)
      | none => some st5) = some st := h
    clear h
    have S := parse_scope_ok scope initState st5 inv_initState hps
    cases hcb : st5.current_block with
    | none =>
      rw [hcb] at h2
      injection h2 with h2
      subst h2
      refine ⟨S.inv.root_ne_ret, S.inv.ret_term, S.inv.ret_unique,
        S.inv.edge_into_root, S.inv.edge_from_ret, ?_⟩
      intro st5' hps' c hc
      injection hps' with hps'
      subst hps'
      rw [hcb] at hc
      exact Option.noConfusion hc
    | some c =>
      rw [hcb] at h2
      injection h2 with h2
      subst h2
      have hI : Inv (addEdge c st5.ret st5) :=
        Inv.addEdge' S.inv (S.inv.cur_ne_ret c hcb)
          (fun hh => S.inv.root_ne_ret hh.symm)
      refine ⟨hI.root_ne_ret, hI.ret_term, hI.ret_unique, hI.edge_into_root,
        hI.edge_from_ret, ?_⟩
      intro st5' hps' c' hc'
      injection hps' with hps'
      subst hps'
      rw [hcb] at hc'
      injection hc' with hc'
      subst hc'
      show (c, st5.ret) ∈ st5.edges ++ [(c, st5.ret)]
      exact List.mem_append_right _ (List.mem_singleton.mpr rfl)

/-- A concrete scope exercising declarations, a branch with an early return,
and straight-line operations. -/
def scW : CScope :=
  .declVar 0 0 ⟨.Float, 1⟩ (.branchIf (.ConstScalar 1 .Bool)
    (.op (.Metadata 1) (.branchReturn .nil)) (.op (.Metadata 2) .nil))

/-- The graph parsed from `scW`. -/
def stW : ParseState := (parse_graph scW).getD ParseState.initial

/-- Witness for C3: `parse_graph` succeeds on the concrete scope `scW`, and
the claimed properties hold of the resulting graph. -/
theorem parse_graph_root_ret_witness :
    parse_graph scW = some stW ∧
    (stW.root ≠ stW.ret ∧
     stW.term stW.ret = ControlFlow.Return ∧
     (∀ i, stW.term i = ControlFlow.Return → i = stW.ret) ∧
     (∀ e ∈ stW.edges, e.2 ≠ stW.root) ∧
     (∀ e ∈ stW.edges, e.1 ≠ stW.ret) ∧
     (∀ st5, parse_scope scW initState = some st5 →
       ∀ c, st5.current_block = some c → (c, stW.ret) ∈ stW.edges)) :=
  ⟨rfl, parse_graph_root_ret scW stW rfl⟩

/-! ## Out-edges and the fallthrough-shape invariant (claim C8)

The backend (`cubecl-spirv/src/branch.rs`, `compile_control_flow`) asserts
that a block whose terminator is `ControlFlow::None` has exactly one outgoing
edge.  The lemmas below show the parser establishes this shape and relate the
terminator of a block to its out-edge list. -/

/-- The outgoing-edge targets of block `i`, in insertion order
(`Optimizer::sucessors`). -/
def outTargets (st : ParseState) (i : Nat) : List Nat :=
  (st.edges.filter fun e => e.1 == i).map Prod.snd

theorem outTargets_addEdge (src dst : Nat) (st : ParseState) (i : Nat) :
    outTargets (addEdge src dst st) i =
      outTargets st i ++ (if src = i then [dst] else []) := by
  by_cases h : src = i <;>
    simp [outTargets, addEdge, List.filter_append, h]

theorem outTargets_setTerm (j : Nat) (t : ControlFlow) (st : ParseState) (i : Nat) :
    outTargets (setTerm j t st) i = outTargets st i := rfl

theorem outTargets_withCurrent (c : Option Nat) (st : ParseState) (i : Nat) :
    outTargets (withCurrent c st) i = outTargets st i := rfl

theorem outTargets_pushBreak (b : Nat) (st : ParseState) (i : Nat) :
    outTargets (pushBreak b st) i = outTargets st i := rfl

theorem outTargets_popBreak (st : ParseState) (i : Nat) :
    outTargets (popBreak st) i = outTargets st i := rfl

theorem outTargets_pushOp (j : Nat) (o : OperationIR) (st : ParseState) (i : Nat) :
    outTargets (pushOp j o st) i = outTargets st i := rfl

theorem outTargets_congr {st st1 : ParseState} (h : st1.edges = st.edges) (i : Nat) :
    outTargets st1 i = outTargets st i := by
  simp [outTargets, h]

/-- Blocks at or past the allocation frontier have no outgoing edges. -/
theorem outTargets_fresh {st : ParseState}
    (hlt : ∀ e ∈ st.edges, e.1 < st.nblocks) {i : Nat} (hi : st.nblocks ≤ i) :
    outTargets st i = [] := by
  have hf : st.edges.filter (fun e => e.1 == i) = [] := by
    rw [List.filter_eq_nil_iff]
    intro e he
    have := hlt e he
    simp only [beq_iff_eq]
    omega
  simp [outTargets, hf]

/-- A block still waiting for its unique outgoing edge: allocated, terminated
by `None`, no out-edges yet. -/
def isOpen (st : ParseState) (i : Nat) : Prop :=
  i < st.nblocks ∧ st.term i = ControlFlow.None ∧ outTargets st i = []

/-- The graph part of the fallthrough-shape invariant: defaulted terminators
beyond the allocation frontier, in-range edges, at most one out-edge per
`None` block, and out-edge lists matching `IfElse` and `Break` terminators. -/
structure GShape (st : ParseState) : Prop where
  term_default : ∀ i, st.nblocks ≤ i → st.term i = ControlFlow.None
  edge_lt : ∀ e ∈ st.edges, e.1 < st.nblocks ∧ e.2 < st.nblocks
  none_le : ∀ i, st.term i = ControlFlow.None → (outTargets st i).length ≤ 1
  ifelse_out : ∀ i cond t e m, st.term i = ControlFlow.IfElse cond t e m →
    outTargets st i = [t, e]
  break_out : ∀ i cond b ob, st.term i = ControlFlow.Break cond b ob →
    outTargets st i = [b, ob]

/-- The fallthrough-shape invariant: the graph part plus an open current
block. -/
structure ShapeInv (st : ParseState) : Prop where
  core : GShape st
  cur_open : ∀ c, st.current_block = some c → isOpen st c

/-- What one completed `parse_scope` call adds to `StepOk`: the shape
invariant is maintained, blocks open afterwards were already open (and stayed
current if they were current) or are the new current block, and open
non-current blocks stay open and non-current. -/
structure ShapeStep (st st' : ParseState) : Prop where
  shape : ShapeInv st'
  open_to : ∀ i, isOpen st' i →
    (isOpen st i ∧ (st.current_block = some i → st'.current_block = some i)) ∨
    st'.current_block = some i
  open_keep : ∀ i, isOpen st i → st.current_block ≠ some i →
    isOpen st' i ∧ st'.current_block ≠ some i

theorem ShapeStep.refl_of_shape {st : ParseState} (h : ShapeInv st) : ShapeStep st st :=
  ⟨h, fun _ hi => Or.inl ⟨hi, fun hc => hc⟩, fun _ hi hc => ⟨hi, hc⟩⟩

theorem ShapeStep.trans_shape {st st1 st2 : ParseState} (h1 : ShapeStep st st1)
    (h2 : ShapeStep st1 st2) : ShapeStep st st2 := by
  refine ⟨h2.shape, ?_, ?_⟩
  · intro i hi
    rcases h2.open_to i hi with ⟨hi1, himp1⟩ | hc2
    · rcases h1.open_to i hi1 with ⟨hi0, himp0⟩ | hc1
      · exact Or.inl ⟨hi0, fun hc => himp1 (himp0 hc)⟩
      · exact Or.inr (himp1 hc1)
    · exact Or.inr hc2
  · intro i hi hc
    obtain ⟨hi1, hc1⟩ := h1.open_keep i hi hc
    exact h2.open_keep i hi1 hc1

/-! ## Micro-lemmas for the shape induction -/

theorem GShape.of_core {st st1 : ParseState} (hterm : st1.term = st.term)
    (hedges : st1.edges = st.edges) (hnb : st.nblocks ≤ st1.nblocks)
    (h : GShape st) : GShape st1 := by
  have hout : ∀ i, outTargets st1 i = outTargets st i :=
    fun i => outTargets_congr hedges i
  refine ⟨?_, ?_, ?_, ?_, ?_⟩
  · intro i hi
    rw [hterm]
    exact h.term_default i (Nat.le_trans hnb hi)
  · intro e he
    rw [hedges] at he
    obtain ⟨h1, h2⟩ := h.edge_lt e he
    omega
  · intro i hi
    rw [hterm] at hi
    rw [hout]
    exact h.none_le i hi
  · intro i cond t e m hi
    rw [hterm] at hi
    rw [hout]
    exact h.ifelse_out i cond t e m hi
  · intro i cond b ob hi
    rw [hterm] at hi
    rw [hout]
    exact h.break_out i cond b ob hi

theorem GShape.addEdge_open {st : ParseState} {src dst : Nat} (h : GShape st)
    (hterm : st.term src = ControlFlow.None) (hout : outTargets st src = [])
    (hsrc : src < st.nblocks) (hdst : dst < st.nblocks) :
    GShape (addEdge src dst st) := by
  refine ⟨h.term_default, ?_, ?_, ?_, ?_⟩
  · intro e he
    rw [addEdge_edges] at he
    rcases List.mem_append.mp he with h1 | h1
    · exact h.edge_lt e h1
    · rw [List.mem_singleton] at h1
      subst h1
      exact ⟨hsrc, hdst⟩
  · intro i hi
    rw [outTargets_addEdge]
    by_cases hsi : src = i
    · subst hsi
      rw [hout]
      simp
    · rw [if_neg hsi]
      simp only [List.append_nil]
      exact h.none_le i hi
  · intro i cond t e m hi
    rw [outTargets_addEdge]
    have hi2 : st.term i = ControlFlow.IfElse cond t e m := hi
    have hsi : src ≠ i := by
      intro hh
      subst hh
      rw [hterm] at hi2
      exact ControlFlow.noConfusion hi2
    rw [if_neg hsi, List.append_nil]
    exact h.ifelse_out i cond t e m hi2
  · intro i cond b ob hi
    rw [outTargets_addEdge]
    have hi2 : st.term i = ControlFlow.Break cond b ob := hi
    have hsi : src ≠ i := by
      intro hh
      subst hh
      rw [hterm] at hi2
      exact ControlFlow.noConfusion hi2
    rw [if_neg hsi, List.append_nil]
    exact h.break_out i cond b ob hi2

theorem GShape.close {st : ParseState} {m : Nat} (h : GShape st)
    (hcur : ∀ c, st.current_block = some c → isOpen st c) (hm : m < st.nblocks) :
    GShape (closeInto m st) := by
  unfold closeInto
  cases hcb : st.current_block with
  | none => exact h
  | some c =>
    obtain ⟨h1, h2, h3⟩ := hcur c hcb
    exact h.addEdge_open h2 h3 h1 hm

/-- Installing an `IfElse` terminator on an open block and adding its two
edges in order. -/
theorem GShape.setIfElse {st : ParseState} {cur t e : Nat} {cond : Variable}
    {m : Nat} (h : GShape st) (hterm : st.term cur = ControlFlow.None)
    (hout : outTargets st cur = []) (hcur : cur < st.nblocks)
    (ht : t < st.nblocks) (he : e < st.nblocks) :
    GShape (addEdge cur e (addEdge cur t
      (setTerm cur (ControlFlow.IfElse cond t e m) st))) := by
  refine ⟨?_, ?_, ?_, ?_, ?_⟩
  · intro i hi
    have hi2 : st.nblocks ≤ i := hi
    show (if i = cur then ControlFlow.IfElse cond t e m else st.term i) =
      ControlFlow.None
    have hne : ¬ i = cur := by omega
    rw [if_neg hne]
    exact h.term_default i hi2
  · intro ed hed
    show ed.1 < st.nblocks ∧ ed.2 < st.nblocks
    have hed2 : ed ∈ (st.edges ++ [(cur, t)]) ++ [(cur, e)] := hed
    rcases List.mem_append.mp hed2 with h1 | h1
    · rcases List.mem_append.mp h1 with h2 | h2
      · exact h.edge_lt ed h2
      · rw [List.mem_singleton] at h2
        subst h2
        exact ⟨hcur, ht⟩
    · rw [List.mem_singleton] at h1
      subst h1
      exact ⟨hcur, he⟩
  · intro i hi
    have hi2 : (if i = cur then ControlFlow.IfElse cond t e m else st.term i) =
      ControlFlow.None := hi
    rw [outTargets_addEdge, outTargets_addEdge, outTargets_setTerm]
    by_cases hic : i = cur
    · rw [if_pos hic] at hi2
      exact ControlFlow.noConfusion hi2
    · rw [if_neg hic] at hi2
      rw [if_neg (fun hh => hic hh.symm), if_neg (fun hh => hic hh.symm),
        List.append_nil, List.append_nil]
      exact h.none_le i hi2
  · intro i cond' t' e' m' hi
    have hi2 : (if i = cur then ControlFlow.IfElse cond t e m else st.term i) =
      ControlFlow.IfElse cond' t' e' m' := hi
    rw [outTargets_addEdge, outTargets_addEdge, outTargets_setTerm]
    by_cases hic : i = cur
    · rw [if_pos hic] at hi2
      injection hi2 with h1 h2 h3 h4
      subst hic h2 h3
      rw [if_pos rfl, if_pos rfl, hout]
      rfl
    · rw [if_neg hic] at hi2
      rw [if_neg (fun hh => hic hh.symm), if_neg (fun hh => hic hh.symm),
        List.append_nil, List.append_nil]
      exact h.ifelse_out i cond' t' e' m' hi2
  · intro i cond' b ob hi
    have hi2 : (if i = cur then ControlFlow.IfElse cond t e m else st.term i) =
      ControlFlow.Break cond' b ob := hi
    rw [outTargets_addEdge, outTargets_addEdge, outTargets_setTerm]
    by_cases hic : i = cur
    · rw [if_pos hic] at hi2
      exact ControlFlow.noConfusion hi2
    · rw [if_neg hic] at hi2
      rw [if_neg (fun hh => hic hh.symm), if_neg (fun hh => hic hh.symm),
        List.append_nil, List.append_nil]
      exact h.break_out i cond' b ob hi2

/-- Installing a `Break` terminator on an open block and adding its two edges
in order. -/
theorem GShape.setBreak {st : ParseState} {cur b ob : Nat} {cond : Variable}
    (h : GShape st) (hterm : st.term cur = ControlFlow.None)
    (hout : outTargets st cur = []) (hcur : cur < st.nblocks)
    (hb : b < st.nblocks) (hob : ob < st.nblocks) :
    GShape (addEdge cur ob (addEdge cur b
      (setTerm cur (ControlFlow.Break cond b ob) st))) := by
  refine ⟨?_, ?_, ?_, ?_, ?_⟩
  · intro i hi
    have hi2 : st.nblocks ≤ i := hi
    show (if i = cur then ControlFlow.Break cond b ob else st.term i) =
      ControlFlow.None
    have hne : ¬ i = cur := by omega
    rw [if_neg hne]
    exact h.term_default i hi2
  · intro ed hed
    show ed.1 < st.nblocks ∧ ed.2 < st.nblocks
    have hed2 : ed ∈ (st.edges ++ [(cur, b)]) ++ [(cur, ob)] := hed
    rcases List.mem_append.mp hed2 with h1 | h1
    · rcases List.mem_append.mp h1 with h2 | h2
      · exact h.edge_lt ed h2
      · rw [List.mem_singleton] at h2
        subst h2
        exact ⟨hcur, hb⟩
    · rw [List.mem_singleton] at h1
      subst h1
      exact ⟨hcur, hob⟩
  · intro i hi
    have hi2 : (if i = cur then ControlFlow.Break cond b ob else st.term i) =
      ControlFlow.None := hi
    rw [outTargets_addEdge, outTargets_addEdge, outTargets_setTerm]
    by_cases hic : i = cur
    · rw [if_pos hic] at hi2
      exact ControlFlow.noConfusion hi2
    · rw [if_neg hic] at hi2
      rw [if_neg (fun hh => hic hh.symm), if_neg (fun hh => hic hh.symm),
        List.append_nil, List.append_nil]
      exact h.none_le i hi2
  · intro i cond' t' e' m' hi
    have hi2 : (if i = cur then ControlFlow.Break cond b ob else st.term i) =
      ControlFlow.IfElse cond' t' e' m' := hi
    rw [outTargets_addEdge, outTargets_addEdge, outTargets_setTerm]
    by_cases hic : i = cur
    · rw [if_pos hic] at hi2
      exact ControlFlow.noConfusion hi2
    · rw [if_neg hic] at hi2
      rw [if_neg (fun hh => hic hh.symm), if_neg (fun hh => hic hh.symm),
        List.append_nil, List.append_nil]
      exact h.ifelse_out i cond' t' e' m' hi2
  · intro i cond' b' ob' hi
    have hi2 : (if i = cur then ControlFlow.Break cond b ob else st.term i) =
      ControlFlow.Break cond' b' ob' := hi
    rw [outTargets_addEdge, outTargets_addEdge, outTargets_setTerm]
    by_cases hic : i = cur
    · rw [if_pos hic] at hi2
      injection hi2 with h1 h2 h3
      subst hic h2 h3
      rw [if_pos rfl, if_pos rfl, hout]
      rfl
    · rw [if_neg hic] at hi2
      rw [if_neg (fun hh => hic hh.symm), if_neg (fun hh => hic hh.symm),
        List.append_nil, List.append_nil]
      exact h.break_out i cond' b' ob' hi2

/-- Installing a `Loop` terminator on an open block and adding its body
edge. -/
theorem GShape.setLoop {st : ParseState} {cur b ct m : Nat} (h : GShape st)
    (hcur : cur < st.nblocks) (hb : b < st.nblocks) :
    GShape (addEdge cur b (setTerm cur (ControlFlow.Loop b ct m) st)) := by
  refine ⟨?_, ?_, ?_, ?_, ?_⟩
  · intro i hi
    have hi2 : st.nblocks ≤ i := hi
    show (if i = cur then ControlFlow.Loop b ct m else st.term i) =
      ControlFlow.None
    have hne : ¬ i = cur := by omega
    rw [if_neg hne]
    exact h.term_default i hi2
  · intro ed hed
    show ed.1 < st.nblocks ∧ ed.2 < st.nblocks
    have hed2 : ed ∈ st.edges ++ [(cur, b)] := hed
    rcases List.mem_append.mp hed2 with h1 | h1
    · exact h.edge_lt ed h1
    · rw [List.mem_singleton] at h1
      subst h1
      exact ⟨hcur, hb⟩
  · intro i hi
    have hi2 : (if i = cur then ControlFlow.Loop b ct m else st.term i) =
      ControlFlow.None := hi
    rw [outTargets_addEdge, outTargets_setTerm]
    by_cases hic : i = cur
    · rw [if_pos hic] at hi2
      exact ControlFlow.noConfusion hi2
    · rw [if_neg hic] at hi2
      rw [if_neg (fun hh => hic hh.symm), List.append_nil]
      exact h.none_le i hi2
  · intro i cond' t' e' m' hi
    have hi2 : (if i = cur then ControlFlow.Loop b ct m else st.term i) =
      ControlFlow.IfElse cond' t' e' m' := hi
    rw [outTargets_addEdge, outTargets_setTerm]
    by_cases hic : i = cur
    · rw [if_pos hic] at hi2
      exact ControlFlow.noConfusion hi2
    · rw [if_neg hic] at hi2
      rw [if_neg (fun hh => hic hh.symm), List.append_nil]
      exact h.ifelse_out i cond' t' e' m' hi2
  · intro i cond' b' ob' hi
    have hi2 : (if i = cur then ControlFlow.Loop b ct m else st.term i) =
      ControlFlow.Break cond' b' ob' := hi
    rw [outTargets_addEdge, outTargets_setTerm]
    by_cases hic : i = cur
    · rw [if_pos hic] at hi2
      exact ControlFlow.noConfusion hi2
    · rw [if_neg hic] at hi2
      rw [if_neg (fun hh => hic hh.symm), List.append_nil]
      exact h.break_out i cond' b' ob' hi2

theorem isOpen_addEdge_of_ne {st : ParseState} {src dst i : Nat}
    (h : isOpen st i) (hne : src ≠ i) : isOpen (addEdge src dst st) i := by
  obtain ⟨h1, h2, h3⟩ := h
  refine ⟨h1, h2, ?_⟩
  rw [outTargets_addEdge, if_neg hne, List.append_nil]
  exact h3

theorem isOpen_closeInto {st : ParseState} {m i : Nat} (h : isOpen st i)
    (hc : st.current_block ≠ some i) : isOpen (closeInto m st) i := by
  unfold closeInto
  cases hcb : st.current_block with
  | none => exact h
  | some c =>
    refine isOpen_addEdge_of_ne h ?_
    intro hh
    subst hh
    exact hc hcb

theorem isOpen_addEdge_elim {st : ParseState} {src dst i : Nat}
    (h : isOpen (addEdge src dst st) i) : isOpen st i ∧ src ≠ i := by
  obtain ⟨h1, h2, h3⟩ := h
  rw [outTargets_addEdge] at h3
  rcases List.append_eq_nil.mp h3 with ⟨h4, h5⟩
  refine ⟨⟨h1, h2, h4⟩, ?_⟩
  intro hh
  rw [if_pos hh] at h5
  exact List.noConfusion h5

theorem isOpen_closeInto_elim {st : ParseState} {m i : Nat}
    (h : isOpen (closeInto m st) i) : isOpen st i ∧ st.current_block ≠ some i := by
  revert h
  unfold closeInto
  cases hcb : st.current_block with
  | none =>
    intro h
    exact ⟨h, fun hh => Option.noConfusion hh⟩
  | some c =>
    intro h
    obtain ⟨h1, h2⟩ := isOpen_addEdge_elim h
    refine ⟨h1, fun hh => ?_⟩
    injection hh with hh
    exact h2 hh

theorem isOpen_setTerm_elim {st : ParseState} {j : Nat} {t : ControlFlow} {i : Nat}
    (ht : t ≠ ControlFlow.None) (h : isOpen (setTerm j t st) i) :
    isOpen st i ∧ i ≠ j := by
  obtain ⟨h1, h2, h3⟩ := h
  rw [setTerm_term] at h2
  by_cases hij : i = j
  · rw [if_pos hij] at h2
    exact absurd h2 ht
  · rw [if_neg hij] at h2
    exact ⟨⟨h1, h2, h3⟩, hij⟩

/-- Openness transported to a state with the same terminators and edges; the
block is either open at the smaller frontier or past it. -/
theorem isOpen_core_elim {st st1 : ParseState} {i : Nat} (hterm : st1.term = st.term)
    (hedges : st1.edges = st.edges) (h : isOpen st1 i) :
    isOpen st i ∨ st.nblocks ≤ i := by
  obtain ⟨h1, h2, h3⟩ := h
  rw [hterm] at h2
  rw [outTargets_congr hedges] at h3
  by_cases hlt : i < st.nblocks
  · exact Or.inl ⟨hlt, h2, h3⟩
  · omega

theorem isOpen_core_intro {st st1 : ParseState} {i : Nat} (hterm : st1.term = st.term)
    (hedges : st1.edges = st.edges) (hnb : st.nblocks ≤ st1.nblocks)
    (h : isOpen st i) : isOpen st1 i := by
  obtain ⟨h1, h2, h3⟩ := h
  rw [← hterm] at h2
  rw [← outTargets_congr hedges] at h3
  exact ⟨by omega, h2, h3⟩

theorem isOpen_setTerm_of_ne {st : ParseState} {j : Nat} {t : ControlFlow} {i : Nat}
    (h : isOpen st i) (hne : i ≠ j) : isOpen (setTerm j t st) i := by
  obtain ⟨h1, h2, h3⟩ := h
  refine ⟨h1, ?_, h3⟩
  show (if i = j then t else st.term i) = ControlFlow.None
  rw [if_neg hne]
  exact h2

/-- Transport of the shape invariant across a state agreeing on terminators,
edges, frontier and cursor. -/
theorem shapeInv_of_core_eq {st st1 : ParseState} (hterm : st1.term = st.term)
    (hedges : st1.edges = st.edges) (hnb : st1.nblocks = st.nblocks)
    (hcur : st1.current_block = st.current_block) (h : ShapeInv st) :
    ShapeInv st1 := by
  refine ⟨GShape.of_core hterm hedges (by omega) h.core, ?_⟩
  intro c hc
  rw [hcur] at hc
  exact isOpen_core_intro hterm hedges (by omega) (h.cur_open c hc)

/-- Transport of a completed shape step across an equivalent start state. -/
theorem shapeStep_of_core_eq {st st1 st' : ParseState} (hterm : st1.term = st.term)
    (hedges : st1.edges = st.edges) (hnb : st1.nblocks = st.nblocks)
    (hcur : st1.current_block = st.current_block) (S : ShapeStep st1 st') :
    ShapeStep st st' := by
  refine ⟨S.shape, ?_, ?_⟩
  · intro i hi
    rcases S.open_to i hi with ⟨h2, h3⟩ | h2
    · left
      constructor
      · rcases isOpen_core_elim hterm hedges h2 with h4 | h4
        · exact h4
        · have h5 : i < st1.nblocks := h2.1
          omega
      · intro hc
        apply h3
        rw [hcur]
        exact hc
    · exact Or.inr h2
  · intro i hi hc
    apply S.open_keep i
    · exact isOpen_core_intro hterm hedges (by omega) hi
    · rw [hcur]
      exact hc

/-- The parser maintains the fallthrough-shape invariant: after a completed
`parse_scope` call, every `None`-terminated block either has exactly one
outgoing edge or is the still-open current block, and `IfElse` and `Break`
blocks carry exactly their two declared out-edges. -/
theorem parse_scope_shape (sc : CScope) :
    ∀ st st', Inv st → ShapeInv st → parse_scope sc st = some st' →
      ShapeStep st st' := by
  induction sc with
  | nil =>
    intro st st' _ hS h
    simp only [parse_scope, Option.some.injEq] at h
    subst h
    exact ShapeStep.refl_of_shape hS
  | declVar id depth item rest ih =>
    intro st st' hI hS h
    have S := ih _ _ hI.insertVariable'
      (@shapeInv_of_core_eq st (insertVariable (id, depth) item st) rfl rfl rfl rfl hS)
      (parse_scope_declVar_elim h)
    exact @shapeStep_of_core_eq st (insertVariable (id, depth) item st) st'
      rfl rfl rfl rfl S
  | op o rest ih =>
    intro st st' hI hS h
    obtain ⟨st1, hnb, hterm, hedges, hroot, hret, hcur, h1⟩ := parse_scope_op_elim h
    have S := ih _ _ (inv_of_core_eq hnb hterm hedges hroot hret hcur hI)
      (shapeInv_of_core_eq hterm hedges hnb hcur hS) h1
    exact shapeStep_of_core_eq hterm hedges hnb hcur S
  | branchIf cond ts rest ih_ts ih_rest =>
    intro st st' hI hS hp
    obtain ⟨cur, st5, hcb, hres, hrest⟩ := parse_scope_branchIf_elim hp
    obtain ⟨hc1, hc2, hc3⟩ := hS.cur_open cur hcb
    have hretlt := hI.ret_lt
    have hrootlt := hI.root_lt
    have hcur_ne : cur ≠ st.ret := hI.cur_ne_ret cur hcb
    have hIB : Inv (withCurrent (some st.nblocks)
        (addEdge cur (st.nblocks + 1) (addEdge cur st.nblocks
          (setTerm cur (.IfElse cond st.nblocks (st.nblocks + 1) (st.nblocks + 1))
            { st with nblocks := st.nblocks + 2 })))) := by
      refine Inv.withCurrent_some ?_ ?_
      · refine Inv.addEdge' ?_ ?_ ?_
        · refine Inv.addEdge' ?_ ?_ ?_
          · exact Inv.setTerm' (hI.grow (by omega)) hcur_ne
              (fun hh => ControlFlow.noConfusion hh)
          · show cur ≠ st.ret
            exact hcur_ne
          · show st.nblocks ≠ st.root
            omega
        · show cur ≠ st.ret
          exact hcur_ne
        · show st.nblocks + 1 ≠ st.root
          omega
      · show st.nblocks ≠ st.ret
        omega
    have hG1 : GShape (addEdge cur (st.nblocks + 1) (addEdge cur st.nblocks
        (setTerm cur (.IfElse cond st.nblocks (st.nblocks + 1) (st.nblocks + 1))
          { st with nblocks := st.nblocks + 2 }))) := by
      refine (@GShape.of_core st { st with nblocks := st.nblocks + 2 } rfl rfl
        (Nat.le_add_right _ 2) hS.core).setIfElse hc2 hc3 ?_ ?_ ?_
      · show cur < st.nblocks + 2
        omega
      · show st.nblocks < st.nblocks + 2
        omega
      · show st.nblocks + 1 < st.nblocks + 2
        omega
    have hopen_grow : ∀ j, st.nblocks ≤ j → j < st.nblocks + 2 →
        isOpen (setTerm cur (.IfElse cond st.nblocks (st.nblocks + 1) (st.nblocks + 1))
          { st with nblocks := st.nblocks + 2 }) j := by
      intro j hj1 hj2
      refine isOpen_setTerm_of_ne ⟨?_, ?_, ?_⟩ (by omega)
      · show j < st.nblocks + 2
        omega
      · exact hS.core.term_default j hj1
      · exact @outTargets_fresh st (fun e he => (hS.core.edge_lt e he).1) j hj1
    have hthen_openB : isOpen (withCurrent (some st.nblocks)
        (addEdge cur (st.nblocks + 1) (addEdge cur st.nblocks
          (setTerm cur (.IfElse cond st.nblocks (st.nblocks + 1) (st.nblocks + 1))
            { st with nblocks := st.nblocks + 2 })))) st.nblocks := by
      show isOpen (addEdge cur (st.nblocks + 1) (addEdge cur st.nblocks
        (setTerm cur (.IfElse cond st.nblocks (st.nblocks + 1) (st.nblocks + 1))
          { st with nblocks := st.nblocks + 2 }))) st.nblocks
      exact isOpen_addEdge_of_ne (isOpen_addEdge_of_ne
        (hopen_grow st.nblocks (Nat.le_refl _) (by omega)) (by omega)) (by omega)
    have hmerge_openB : isOpen (withCurrent (some st.nblocks)
        (addEdge cur (st.nblocks + 1) (addEdge cur st.nblocks
          (setTerm cur (.IfElse cond st.nblocks (st.nblocks + 1) (st.nblocks + 1))
            { st with nblocks := st.nblocks + 2 })))) (st.nblocks + 1) := by
      show isOpen (addEdge cur (st.nblocks + 1) (addEdge cur st.nblocks
        (setTerm cur (.IfElse cond st.nblocks (st.nblocks + 1) (st.nblocks + 1))
          { st with nblocks := st.nblocks + 2 }))) (st.nblocks + 1)
      exact isOpen_addEdge_of_ne (isOpen_addEdge_of_ne
        (hopen_grow (st.nblocks + 1) (by omega) (by omega)) (by omega)) (by omega)
    have hSB : ShapeInv (withCurrent (some st.nblocks)
        (addEdge cur (st.nblocks + 1) (addEdge cur st.nblocks
          (setTerm cur (.IfElse cond st.nblocks (st.nblocks + 1) (st.nblocks + 1))
            { st with nblocks := st.nblocks + 2 })))) := by
      refine ⟨⟨hG1.term_default, hG1.edge_lt, hG1.none_le, hG1.ifelse_out,
        hG1.break_out⟩, ?_⟩
      intro c hc
      have hc' : some st.nblocks = some c := hc
      injection hc' with hc'
      subst hc'
      exact hthen_openB
    have S1 := ih_ts _ _ hIB hSB hres
    have SK1 := parse_scope_ok ts _ st5 hIB hres
    have hnb5 : st.nblocks + 2 ≤ st5.nblocks := SK1.nblocks_le
    obtain ⟨hm5, hm5c⟩ := S1.open_keep (st.nblocks + 1) hmerge_openB
      (by intro hh; injection hh with hh; omega)
    have hroot5 : st5.root = st.root := SK1.root_eq
    have hret5 : st5.ret = st.ret := SK1.ret_eq
    have hIC : Inv (withCurrent (some (st.nblocks + 1))
        (closeInto (st.nblocks + 1) st5)) := by
      refine Inv.withCurrent_some (Inv.closeInto' SK1.inv ?_) ?_
      · rw [hroot5]; omega
      · rw [closeInto_ret, hret5]; omega
    have hSC : ShapeInv (withCurrent (some (st.nblocks + 1))
        (closeInto (st.nblocks + 1) st5)) := by
      have hGC : GShape (closeInto (st.nblocks + 1) st5) :=
        S1.shape.core.close S1.shape.cur_open (by omega)
      refine ⟨⟨hGC.term_default, hGC.edge_lt, hGC.none_le, hGC.ifelse_out,
        hGC.break_out⟩, ?_⟩
      intro c hc
      have hc' : some (st.nblocks + 1) = some c := hc
      injection hc' with hc'
      subst hc'
      exact isOpen_closeInto hm5 hm5c
    have S2 := ih_rest _ _ hIC hSC hrest
    refine ⟨S2.shape, ?_, ?_⟩
    · intro i hi
      rcases S2.open_to i hi with ⟨hiC, himpC⟩ | hc2
      · by_cases him : i = st.nblocks + 1
        · refine Or.inr (himpC ?_)
          show some (st.nblocks + 1) = some i
          rw [him]
        · have hiC' : isOpen (closeInto (st.nblocks + 1) st5) i := hiC
          obtain ⟨hi5, hc5⟩ := isOpen_closeInto_elim hiC'
          rcases S1.open_to i hi5 with ⟨hiB, himpB⟩ | hc1
          · by_cases hit : i = st.nblocks
            · exfalso
              apply hc5
              apply himpB
              show some st.nblocks = some i
              rw [hit]
            · have hiB' : isOpen (addEdge cur (st.nblocks + 1) (addEdge cur st.nblocks
                  (setTerm cur (.IfElse cond st.nblocks (st.nblocks + 1) (st.nblocks + 1))
                    { st with nblocks := st.nblocks + 2 }))) i := hiB
              obtain ⟨h3, _⟩ := isOpen_addEdge_elim hiB'
              obtain ⟨h4, _⟩ := isOpen_addEdge_elim h3
              obtain ⟨h5, hicur⟩ := isOpen_setTerm_elim
                (fun hh => ControlFlow.noConfusion hh) h4
              rcases @isOpen_core_elim st { st with nblocks := st.nblocks + 2 } i
                rfl rfl h5 with h6 | h6
              · refine Or.inl ⟨h6, ?_⟩
                intro hc
                rw [hcb] at hc
                injection hc with hc
                exact absurd hc.symm hicur
              · exfalso
                have h7 : i < st.nblocks + 2 := h5.1
                omega
          · exact absurd hc1 hc5
      · exact Or.inr hc2
    · intro i hi hc
      have hicur : i ≠ cur := by
        intro hh
        subst hh
        exact hc hcb
      have hilt : i < st.nblocks := hi.1
      have hiB : isOpen (withCurrent (some st.nblocks)
          (addEdge cur (st.nblocks + 1) (addEdge cur st.nblocks
            (setTerm cur (.IfElse cond st.nblocks (st.nblocks + 1) (st.nblocks + 1))
              { st with nblocks := st.nblocks + 2 })))) i := by
        show isOpen (addEdge cur (st.nblocks + 1) (addEdge cur st.nblocks
          (setTerm cur (.IfElse cond st.nblocks (st.nblocks + 1) (st.nblocks + 1))
            { st with nblocks := st.nblocks + 2 }))) i
        refine isOpen_addEdge_of_ne (isOpen_addEdge_of_ne
          (isOpen_setTerm_of_ne
            (@isOpen_core_intro st { st with nblocks := st.nblocks + 2 } i
              rfl rfl (Nat.le_add_right _ 2) hi)
            (fun hh => hicur hh)) (fun hh => hicur hh.symm)) (fun hh => hicur hh.symm)
      obtain ⟨hi5, hc5⟩ := S1.open_keep i hiB
        (by intro hh; injection hh with hh; omega)
      obtain ⟨hiD, hcD⟩ := S2.open_keep i (isOpen_closeInto hi5 hc5)
        (by intro hh; injection hh with hh; omega)
      exact ⟨hiD, hcD⟩
  | branchIfElse cond ts es rest ih_ts ih_es ih_rest =>
    intro st st' hI hS hp
    obtain ⟨cur, st6, st8, hcb, hres, hres2, hrest⟩ := parse_scope_branchIfElse_elim hp
    obtain ⟨hc1, hc2, hc3⟩ := hS.cur_open cur hcb
    have hretlt := hI.ret_lt
    have hrootlt := hI.root_lt
    have hcur_ne : cur ≠ st.ret := hI.cur_ne_ret cur hcb
    have hIB : Inv (withCurrent (some st.nblocks)
        (addEdge cur (st.nblocks + 1) (addEdge cur st.nblocks
          (setTerm cur (.IfElse cond st.nblocks (st.nblocks + 1) (st.nblocks + 2))
            { st with nblocks := st.nblocks + 3 })))) := by
      refine Inv.withCurrent_some ?_ ?_
      · refine Inv.addEdge' ?_ ?_ ?_
        · refine Inv.addEdge' ?_ ?_ ?_
          · exact Inv.setTerm' (hI.grow (by omega)) hcur_ne
              (fun hh => ControlFlow.noConfusion hh)
          · show cur ≠ st.ret
            exact hcur_ne
          · show st.nblocks ≠ st.root
            omega
        · show cur ≠ st.ret
          exact hcur_ne
        · show st.nblocks + 1 ≠ st.root
          omega
      · show st.nblocks ≠ st.ret
        omega
    have hG1 : GShape (addEdge cur (st.nblocks + 1) (addEdge cur st.nblocks
        (setTerm cur (.IfElse cond st.nblocks (st.nblocks + 1) (st.nblocks + 2))
          { st with nblocks := st.nblocks + 3 }))) := by
      refine (@GShape.of_core st { st with nblocks := st.nblocks + 3 } rfl rfl
        (Nat.le_add_right _ 3) hS.core).setIfElse hc2 hc3 ?_ ?_ ?_
      · show cur < st.nblocks + 3
        omega
      · show st.nblocks < st.nblocks + 3
        omega
      · show st.nblocks + 1 < st.nblocks + 3
        omega
    have hopen_grow : ∀ j, st.nblocks ≤ j → j < st.nblocks + 3 →
        isOpen (addEdge cur (st.nblocks + 1) (addEdge cur st.nblocks
          (setTerm cur (.IfElse cond st.nblocks (st.nblocks + 1) (st.nblocks + 2))
            { st with nblocks := st.nblocks + 3 }))) j := by
      intro j hj1 hj2
      have hjcur : j ≠ cur := by omega
      refine isOpen_addEdge_of_ne (isOpen_addEdge_of_ne
        (isOpen_setTerm_of_ne ⟨?_, ?_, ?_⟩ hjcur)
        (fun hh => hjcur hh.symm)) (fun hh => hjcur hh.symm)
      · show j < st.nblocks + 3
        omega
      · exact hS.core.term_default j hj1
      · exact @outTargets_fresh st (fun e he => (hS.core.edge_lt e he).1) j hj1
    have hSB : ShapeInv (withCurrent (some st.nblocks)
        (addEdge cur (st.nblocks + 1) (addEdge cur st.nblocks
          (setTerm cur (.IfElse cond st.nblocks (st.nblocks + 1) (st.nblocks + 2))
            { st with nblocks := st.nblocks + 3 })))) := by
      refine ⟨⟨hG1.term_default, hG1.edge_lt, hG1.none_le, hG1.ifelse_out,
        hG1.break_out⟩, ?_⟩
      intro c hc
      have hc' : some st.nblocks = some c := hc
      injection hc' with hc'
      subst hc'
      exact hopen_grow st.nblocks (Nat.le_refl _) (by omega)
    have S1 := ih_ts _ _ hIB hSB hres
    have SK1 := parse_scope_ok ts _ st6 hIB hres
    have hnb6 : st.nblocks + 3 ≤ st6.nblocks := SK1.nblocks_le
    have hroot6 : st6.root = st.root := SK1.root_eq
    have hret6 : st6.ret = st.ret := SK1.ret_eq
    obtain ⟨he6, he6c⟩ := S1.open_keep (st.nblocks + 1)
      (hopen_grow (st.nblocks + 1) (by omega) (by omega))
      (by intro hh; injection hh with hh; omega)
    obtain ⟨hm6, hm6c⟩ := S1.open_keep (st.nblocks + 2)
      (hopen_grow (st.nblocks + 2) (by omega) (by omega))
      (by intro hh; injection hh with hh; omega)
    have hIC : Inv (withCurrent (some (st.nblocks + 1))
        (closeInto (st.nblocks + 2) st6)) := by
      refine Inv.withCurrent_some (Inv.closeInto' SK1.inv ?_) ?_
      · rw [hroot6]; omega
      · rw [closeInto_ret, hret6]; omega
    have hSC : ShapeInv (withCurrent (some (st.nblocks + 1))
        (closeInto (st.nblocks + 2) st6)) := by
      have hGC : GShape (closeInto (st.nblocks + 2) st6) :=
        S1.shape.core.close S1.shape.cur_open (by omega)
      refine ⟨⟨hGC.term_default, hGC.edge_lt, hGC.none_le, hGC.ifelse_out,
        hGC.break_out⟩, ?_⟩
      intro c hc
      have hc' : some (st.nblocks + 1) = some c := hc
      injection hc' with hc'
      subst hc'
      exact isOpen_closeInto he6 he6c
    have S2 := ih_es _ _ hIC hSC hres2
    have SK2 := parse_scope_ok es _ st8 hIC hres2
    have hnb8 : (closeInto (st.nblocks + 2) st6).nblocks ≤ st8.nblocks := SK2.nblocks_le
    rw [closeInto_nblocks] at hnb8
    have hroot8 : st8.root = (closeInto (st.nblocks + 2) st6).root := SK2.root_eq
    rw [closeInto_root, hroot6] at hroot8
    have hret8 : st8.ret = (closeInto (st.nblocks + 2) st6).ret := SK2.ret_eq
    rw [closeInto_ret, hret6] at hret8
    obtain ⟨hm8, hm8c⟩ := S2.open_keep (st.nblocks + 2)
      (isOpen_closeInto hm6 hm6c)
      (by intro hh; injection hh with hh; omega)
    have hID : Inv (withCurrent (some (st.nblocks + 2))
        (closeInto (st.nblocks + 2) st8)) := by
      refine Inv.withCurrent_some (Inv.closeInto' SK2.inv ?_) ?_
      · rw [hroot8]; omega
      · rw [closeInto_ret, hret8]; omega
    have hSD : ShapeInv (withCurrent (some (st.nblocks + 2))
        (closeInto (st.nblocks + 2) st8)) := by
      have hGD : GShape (closeInto (st.nblocks + 2) st8) :=
        S2.shape.core.close S2.shape.cur_open (by omega)
      refine ⟨⟨hGD.term_default, hGD.edge_lt, hGD.none_le, hGD.ifelse_out,
        hGD.break_out⟩, ?_⟩
      intro c hc
      have hc' : some (st.nblocks + 2) = some c := hc
      injection hc' with hc'
      subst hc'
      exact isOpen_closeInto hm8 hm8c
    have S3 := ih_rest _ _ hID hSD hrest
    refine ⟨S3.shape, ?_, ?_⟩
    · intro i hi
      rcases S3.open_to i hi with ⟨hiD, himpD⟩ | hcf
      · by_cases him : i = st.nblocks + 2
        · refine Or.inr (himpD ?_)
          show some (st.nblocks + 2) = some i
          rw [him]
        · have hiD' : isOpen (closeInto (st.nblocks + 2) st8) i := hiD
          obtain ⟨hi8, hc8⟩ := isOpen_closeInto_elim hiD'
          rcases S2.open_to i hi8 with ⟨hiC, himpC⟩ | hc2'
          · by_cases hie : i = st.nblocks + 1
            · exfalso
              apply hc8
              apply himpC
              show some (st.nblocks + 1) = some i
              rw [hie]
            · have hiC' : isOpen (closeInto (st.nblocks + 2) st6) i := hiC
              obtain ⟨hi6, hc6⟩ := isOpen_closeInto_elim hiC'
              rcases S1.open_to i hi6 with ⟨hiB, himpB⟩ | hc1'
              · by_cases hit : i = st.nblocks
                · exfalso
                  apply hc6
                  apply himpB
                  show some st.nblocks = some i
                  rw [hit]
                · have hiB' : isOpen (addEdge cur (st.nblocks + 1) (addEdge cur st.nblocks
                      (setTerm cur (.IfElse cond st.nblocks (st.nblocks + 1) (st.nblocks + 2))
                        { st with nblocks := st.nblocks + 3 }))) i := hiB
                  obtain ⟨h3, _⟩ := isOpen_addEdge_elim hiB'
                  obtain ⟨h4, _⟩ := isOpen_addEdge_elim h3
                  obtain ⟨h5, hicur⟩ := isOpen_setTerm_elim
                    (fun hh => ControlFlow.noConfusion hh) h4
                  rcases @isOpen_core_elim st { st with nblocks := st.nblocks + 3 } i
                    rfl rfl h5 with h6 | h6
                  · refine Or.inl ⟨h6, ?_⟩
                    intro hc
                    rw [hcb] at hc
                    injection hc with hc
                    exact absurd hc.symm hicur
                  · exfalso
                    have h7 : i < st.nblocks + 3 := h5.1
                    omega
              · exact absurd hc1' hc6
          · exact absurd hc2' hc8
      · exact Or.inr hcf
    · intro i hi hc
      have hicur : i ≠ cur := by
        intro hh
        subst hh
        exact hc hcb
      have hilt : i < st.nblocks := hi.1
      have hiB : isOpen (withCurrent (some st.nblocks)
          (addEdge cur (st.nblocks + 1) (addEdge cur st.nblocks
            (setTerm cur (.IfElse cond st.nblocks (st.nblocks + 1) (st.nblocks + 2))
              { st with nblocks := st.nblocks + 3 })))) i := by
        show isOpen (addEdge cur (st.nblocks + 1) (addEdge cur st.nblocks
          (setTerm cur (.IfElse cond st.nblocks (st.nblocks + 1) (st.nblocks + 2))
            { st with nblocks := st.nblocks + 3 }))) i
        refine isOpen_addEdge_of_ne (isOpen_addEdge_of_ne
          (isOpen_setTerm_of_ne
            (@isOpen_core_intro st { st with nblocks := st.nblocks + 3 } i
              rfl rfl (Nat.le_add_right _ 3) hi)
            (fun hh => hicur hh)) (fun hh => hicur hh.symm)) (fun hh => hicur hh.symm)
      obtain ⟨hi6, hc6⟩ := S1.open_keep i hiB
        (by intro hh; injection hh with hh; omega)
      obtain ⟨hi8, hc8⟩ := S2.open_keep i (isOpen_closeInto hi6 hc6)
        (by intro hh; injection hh with hh; omega)
      exact S3.open_keep i (isOpen_closeInto hi8 hc8)
        (by intro hh; injection hh with hh; omega)
  | branchLoop body rest ih_body ih_rest =>
    intro st st' hI hS hp
    obtain ⟨cur, st7, hcb, hres, hrest⟩ := parse_scope_branchLoop_elim hp
    obtain ⟨hc1, hc2, hc3⟩ := hS.cur_open cur hcb
    have hretlt := hI.ret_lt
    have hrootlt := hI.root_lt
    have hcur_ne : cur ≠ st.ret := hI.cur_ne_ret cur hcb
    have hIB : Inv (withCurrent (some st.nblocks)
        (pushBreak (st.nblocks + 2) (addEdge cur st.nblocks
          (setTerm cur (.Loop st.nblocks (st.nblocks + 1) (st.nblocks + 2))
            { st with nblocks := st.nblocks + 3 })))) := by
      refine Inv.withCurrent_some (Inv.pushBreak' ?_) ?_
      · refine Inv.addEdge' ?_ ?_ ?_
        · exact Inv.setTerm' (hI.grow (by omega)) hcur_ne
            (fun hh => ControlFlow.noConfusion hh)
        · show cur ≠ st.ret
          exact hcur_ne
        · show st.nblocks ≠ st.root
          omega
      · show st.nblocks ≠ st.ret
        omega
    have hG1 : GShape (addEdge cur st.nblocks
        (setTerm cur (.Loop st.nblocks (st.nblocks + 1) (st.nblocks + 2))
          { st with nblocks := st.nblocks + 3 })) := by
      refine (@GShape.of_core st { st with nblocks := st.nblocks + 3 } rfl rfl
        (Nat.le_add_right _ 3) hS.core).setLoop ?_ ?_
      · show cur < st.nblocks + 3
        omega
      · show st.nblocks < st.nblocks + 3
        omega
    have hopen_grow : ∀ j, st.nblocks ≤ j → j < st.nblocks + 3 →
        isOpen (addEdge cur st.nblocks
          (setTerm cur (.Loop st.nblocks (st.nblocks + 1) (st.nblocks + 2))
            { st with nblocks := st.nblocks + 3 })) j := by
      intro j hj1 hj2
      have hjcur : j ≠ cur := by omega
      refine isOpen_addEdge_of_ne
        (isOpen_setTerm_of_ne ⟨?_, ?_, ?_⟩ hjcur) (fun hh => hjcur hh.symm)
      · show j < st.nblocks + 3
        omega
      · exact hS.core.term_default j hj1
      · exact @outTargets_fresh st (fun e he => (hS.core.edge_lt e he).1) j hj1
    have hSB : ShapeInv (withCurrent (some st.nblocks)
        (pushBreak (st.nblocks + 2) (addEdge cur st.nblocks
          (setTerm cur (.Loop st.nblocks (st.nblocks + 1) (st.nblocks + 2))
            { st with nblocks := st.nblocks + 3 })))) := by
      refine ⟨⟨hG1.term_default, hG1.edge_lt, hG1.none_le, hG1.ifelse_out,
        hG1.break_out⟩, ?_⟩
      intro c hc
      have hc' : some st.nblocks = some c := hc
      injection hc' with hc'
      subst hc'
      exact hopen_grow st.nblocks (Nat.le_refl _) (by omega)
    have S1 := ih_body _ _ hIB hSB hres
    have SK1 := parse_scope_ok body _ st7 hIB hres
    have hnb7 : st.nblocks + 3 ≤ st7.nblocks := SK1.nblocks_le
    have hroot7 : st7.root = st.root := SK1.root_eq
    have hret7 : st7.ret = st.ret := SK1.ret_eq
    obtain ⟨hcont7, hcont7c⟩ := S1.open_keep (st.nblocks + 1)
      (hopen_grow (st.nblocks + 1) (by omega) (by omega))
      (by intro hh; injection hh with hh; omega)
    obtain ⟨hm7, hm7c⟩ := S1.open_keep (st.nblocks + 2)
      (hopen_grow (st.nblocks + 2) (by omega) (by omega))
      (by intro hh; injection hh with hh; omega)
    have hIC : Inv (withCurrent (some (st.nblocks + 2))
        (popBreak (addEdge (st.nblocks + 1) st.nblocks
          (closeInto (st.nblocks + 1) st7)))) := by
      refine Inv.withCurrent_some
        (Inv.popBreak' (Inv.addEdge' (Inv.closeInto' SK1.inv ?_) ?_ ?_)) ?_
      · rw [hroot7]; omega
      · show st.nblocks + 1 ≠ (closeInto (st.nblocks + 1) st7).ret
        rw [closeInto_ret, hret7]; omega
      · show st.nblocks ≠ (closeInto (st.nblocks + 1) st7).root
        rw [closeInto_root, hroot7]; omega
      · show st.nblocks + 2 ≠ (closeInto (st.nblocks + 1) st7).ret
        rw [closeInto_ret, hret7]; omega
    have hcont_closed : isOpen (closeInto (st.nblocks + 1) st7) (st.nblocks + 1) :=
      isOpen_closeInto hcont7 hcont7c
    have hSC : ShapeInv (withCurrent (some (st.nblocks + 2))
        (popBreak (addEdge (st.nblocks + 1) st.nblocks
          (closeInto (st.nblocks + 1) st7)))) := by
      have hGC : GShape (closeInto (st.nblocks + 1) st7) :=
        S1.shape.core.close S1.shape.cur_open (by omega)
      have hGE : GShape (addEdge (st.nblocks + 1) st.nblocks
          (closeInto (st.nblocks + 1) st7)) := by
        refine hGC.addEdge_open hcont_closed.2.1 hcont_closed.2.2 ?_ ?_
        · rw [closeInto_nblocks]
          omega
        · rw [closeInto_nblocks]
          omega
      refine ⟨⟨hGE.term_default, hGE.edge_lt, hGE.none_le, hGE.ifelse_out,
        hGE.break_out⟩, ?_⟩
      intro c hc
      have hc' : some (st.nblocks + 2) = some c := hc
      injection hc' with hc'
      subst hc'
      exact isOpen_addEdge_of_ne (isOpen_closeInto hm7 hm7c) (by omega)
    have S2 := ih_rest _ _ hIC hSC hrest
    refine ⟨S2.shape, ?_, ?_⟩
    · intro i hi
      rcases S2.open_to i hi with ⟨hiC, himpC⟩ | hcf
      · by_cases him : i = st.nblocks + 2
        · refine Or.inr (himpC ?_)
          show some (st.nblocks + 2) = some i
          rw [him]
        · have hiC' : isOpen (addEdge (st.nblocks + 1) st.nblocks
              (closeInto (st.nblocks + 1) st7)) i := hiC
          obtain ⟨h3, hne_cont⟩ := isOpen_addEdge_elim hiC'
          obtain ⟨hi7, hc7⟩ := isOpen_closeInto_elim h3
          rcases S1.open_to i hi7 with ⟨hiB, himpB⟩ | hc1'
          · by_cases hit : i = st.nblocks
            · exfalso
              apply hc7
              apply himpB
              show some st.nblocks = some i
              rw [hit]
            · have hiB' : isOpen (addEdge cur st.nblocks
                  (setTerm cur (.Loop st.nblocks (st.nblocks + 1) (st.nblocks + 2))
                    { st with nblocks := st.nblocks + 3 })) i := hiB
              obtain ⟨h4, _⟩ := isOpen_addEdge_elim hiB'
              obtain ⟨h5, hicur⟩ := isOpen_setTerm_elim
                (fun hh => ControlFlow.noConfusion hh) h4
              rcases @isOpen_core_elim st { st with nblocks := st.nblocks + 3 } i
                rfl rfl h5 with h6 | h6
              · refine Or.inl ⟨h6, ?_⟩
                intro hc
                rw [hcb] at hc
                injection hc with hc
                exact absurd hc.symm hicur
              · exfalso
                have h7 : i < st.nblocks + 3 := h5.1
                omega
          · exact absurd hc1' hc7
      · exact Or.inr hcf
    · intro i hi hc
      have hicur : i ≠ cur := by
        intro hh
        subst hh
        exact hc hcb
      have hilt : i < st.nblocks := hi.1
      have hiB : isOpen (withCurrent (some st.nblocks)
          (pushBreak (st.nblocks + 2) (addEdge cur st.nblocks
            (setTerm cur (.Loop st.nblocks (st.nblocks + 1) (st.nblocks + 2))
              { st with nblocks := st.nblocks + 3 })))) i := by
        show isOpen (addEdge cur st.nblocks
          (setTerm cur (.Loop st.nblocks (st.nblocks + 1) (st.nblocks + 2))
            { st with nblocks := st.nblocks + 3 })) i
        refine isOpen_addEdge_of_ne
          (isOpen_setTerm_of_ne
            (@isOpen_core_intro st { st with nblocks := st.nblocks + 3 } i
              rfl rfl (Nat.le_add_right _ 3) hi)
            (fun hh => hicur hh)) (fun hh => hicur hh.symm)
      obtain ⟨hi7, hc7⟩ := S1.open_keep i hiB
        (by intro hh; injection hh with hh; omega)
      exact S2.open_keep i
        (isOpen_addEdge_of_ne (isOpen_closeInto hi7 hc7) (by omega))
        (by intro hh; injection hh with hh; omega)
  | branchRangeLoop ivar sv ev body rest ih_body ih_rest =>
    intro st st' hI hS hp
    obtain ⟨cur, st11, hcb, hres, hrest⟩ := parse_scope_branchRangeLoop_elim hp
    obtain ⟨hc1, hc2, hc3⟩ := hS.cur_open cur hcb
    have hretlt := hI.ret_lt
    have hrootlt := hI.root_lt
    have hcur_ne : cur ≠ st.ret := hI.cur_ne_ret cur hcb
    have hInvR : Inv { st with nblocks := st.nblocks + 1 + 1 + 1 + 1,
                               current_block := some cur } := by
      refine ⟨?_, ?_, hI.root_ne_ret, hI.ret_term, hI.ret_unique,
        hI.edge_into_root, hI.edge_from_ret, ?_⟩
      · show st.root < st.nblocks + 1 + 1 + 1 + 1
        omega
      · show st.ret < st.nblocks + 1 + 1 + 1 + 1
        omega
      · intro c hc
        injection hc with hc
        subst hc
        exact hcur_ne
    have hIB : Inv (withCurrent (some (st.nblocks + 1))
        (pushBreak (st.nblocks + 1 + 1 + 1)
          (addEdge st.nblocks (st.nblocks + 1 + 1 + 1) (addEdge st.nblocks (st.nblocks + 1)
            (setTerm st.nblocks (.Break ivar (st.nblocks + 1) (st.nblocks + 1 + 1 + 1))
              (pushOp st.nblocks (.Operator (.Other 0 (some ivar)))
                (addEdge cur st.nblocks
                  (setTerm cur (.Loop st.nblocks (st.nblocks + 1 + 1) (st.nblocks + 1 + 1 + 1))
                    { st with nblocks := st.nblocks + 1 + 1 + 1 + 1,
                              current_block := some cur })))))))) := by
      refine Inv.withCurrent_some (Inv.pushBreak' ?_) ?_
      · refine Inv.addEdge' ?_ ?_ ?_
        · refine Inv.addEdge' ?_ ?_ ?_
          · refine Inv.setTerm' (Inv.pushOp' ?_) ?_ ?_
            · refine Inv.addEdge' ?_ ?_ ?_
              · exact Inv.setTerm' hInvR hcur_ne (fun hh => ControlFlow.noConfusion hh)
              · show cur ≠ st.ret
                exact hcur_ne
              · show st.nblocks ≠ st.root
                omega
            · show st.nblocks ≠ st.ret
              omega
            · exact fun hh => ControlFlow.noConfusion hh
          · show st.nblocks ≠ st.ret
            omega
          · show st.nblocks + 1 ≠ st.root
            omega
        · show st.nblocks ≠ st.ret
          omega
        · show st.nblocks + 1 + 1 + 1 ≠ st.root
          omega
      · show st.nblocks + 1 ≠ st.ret
        omega
    have hGR : GShape { st with nblocks := st.nblocks + 1 + 1 + 1 + 1,
                                current_block := some cur } :=
      @GShape.of_core st
        { st with nblocks := st.nblocks + 1 + 1 + 1 + 1, current_block := some cur }
        rfl rfl (Nat.le_add_right _ 4) hS.core
    have hGX2 : GShape (addEdge cur st.nblocks
        (setTerm cur (.Loop st.nblocks (st.nblocks + 1 + 1) (st.nblocks + 1 + 1 + 1))
          { st with nblocks := st.nblocks + 1 + 1 + 1 + 1,
                    current_block := some cur })) := by
      refine hGR.setLoop ?_ ?_
      · show cur < st.nblocks + 1 + 1 + 1 + 1
        omega
      · show st.nblocks < st.nblocks + 1 + 1 + 1 + 1
        omega
    have hGX6 : GShape (addEdge st.nblocks (st.nblocks + 1 + 1 + 1)
        (addEdge st.nblocks (st.nblocks + 1)
          (setTerm st.nblocks (.Break ivar (st.nblocks + 1) (st.nblocks + 1 + 1 + 1))
            (pushOp st.nblocks (.Operator (.Other 0 (some ivar)))
              (addEdge cur st.nblocks
                (setTerm cur (.Loop st.nblocks (st.nblocks + 1 + 1) (st.nblocks + 1 + 1 + 1))
                  { st with nblocks := st.nblocks + 1 + 1 + 1 + 1,
                            current_block := some cur })))))) := by
      have hne : st.nblocks ≠ cur := by omega
      refine GShape.setBreak
        ⟨hGX2.term_default, hGX2.edge_lt, hGX2.none_le, hGX2.ifelse_out,
          hGX2.break_out⟩ ?_ ?_ ?_ ?_ ?_
      · show (if st.nblocks = cur
            then ControlFlow.Loop st.nblocks (st.nblocks + 1 + 1) (st.nblocks + 1 + 1 + 1)
            else st.term st.nblocks) = ControlFlow.None
        rw [if_neg hne]
        exact hS.core.term_default st.nblocks (Nat.le_refl _)
      · show outTargets (addEdge cur st.nblocks
          (setTerm cur (.Loop st.nblocks (st.nblocks + 1 + 1) (st.nblocks + 1 + 1 + 1))
            { st with nblocks := st.nblocks + 1 + 1 + 1 + 1,
                      current_block := some cur })) st.nblocks = []
        rw [outTargets_addEdge, if_neg (show ¬ cur = st.nblocks by omega),
          List.append_nil]
        exact @outTargets_fresh st (fun e he => (hS.core.edge_lt e he).1)
          st.nblocks (Nat.le_refl _)
      · show st.nblocks < st.nblocks + 1 + 1 + 1 + 1
        omega
      · show st.nblocks + 1 < st.nblocks + 1 + 1 + 1 + 1
        omega
      · show st.nblocks + 1 + 1 + 1 < st.nblocks + 1 + 1 + 1 + 1
        omega
    have hopen_grow : ∀ j, st.nblocks + 1 ≤ j → j < st.nblocks + 1 + 1 + 1 + 1 →
        isOpen (addEdge st.nblocks (st.nblocks + 1 + 1 + 1)
          (addEdge st.nblocks (st.nblocks + 1)
            (setTerm st.nblocks (.Break ivar (st.nblocks + 1) (st.nblocks + 1 + 1 + 1))
              (pushOp st.nblocks (.Operator (.Other 0 (some ivar)))
                (addEdge cur st.nblocks
                  (setTerm cur (.Loop st.nblocks (st.nblocks + 1 + 1) (st.nblocks + 1 + 1 + 1))
                    { st with nblocks := st.nblocks + 1 + 1 + 1 + 1,
                              current_block := some cur })))))) j := by
      intro j hj1 hj2
      have hjcur : j ≠ cur := by omega
      have hjnb : j ≠ st.nblocks := by omega
      have hbase : isOpen { st with nblocks := st.nblocks + 1 + 1 + 1 + 1,
                                    current_block := some cur } j := by
        refine ⟨?_, ?_, ?_⟩
        · show j < st.nblocks + 1 + 1 + 1 + 1
          omega
        · exact hS.core.term_default j (by omega)
        · exact @outTargets_fresh st (fun e he => (hS.core.edge_lt e he).1) j (by omega)
      have h1 : isOpen (setTerm cur
          (.Loop st.nblocks (st.nblocks + 1 + 1) (st.nblocks + 1 + 1 + 1))
          { st with nblocks := st.nblocks + 1 + 1 + 1 + 1,
                    current_block := some cur }) j :=
        isOpen_setTerm_of_ne hbase hjcur
      have h2 : isOpen (addEdge cur st.nblocks
          (setTerm cur (.Loop st.nblocks (st.nblocks + 1 + 1) (st.nblocks + 1 + 1 + 1))
            { st with nblocks := st.nblocks + 1 + 1 + 1 + 1,
                      current_block := some cur })) j :=
        isOpen_addEdge_of_ne h1 (fun hh => hjcur hh.symm)
      have h3 : isOpen (pushOp st.nblocks (.Operator (.Other 0 (some ivar)))
          (addEdge cur st.nblocks
            (setTerm cur (.Loop st.nblocks (st.nblocks + 1 + 1) (st.nblocks + 1 + 1 + 1))
              { st with nblocks := st.nblocks + 1 + 1 + 1 + 1,
                        current_block := some cur }))) j := h2
      have h4 : isOpen (setTerm st.nblocks
          (.Break ivar (st.nblocks + 1) (st.nblocks + 1 + 1 + 1))
          (pushOp st.nblocks (.Operator (.Other 0 (some ivar)))
            (addEdge cur st.nblocks
              (setTerm cur (.Loop st.nblocks (st.nblocks + 1 + 1) (st.nblocks + 1 + 1 + 1))
                { st with nblocks := st.nblocks + 1 + 1 + 1 + 1,
                          current_block := some cur })))) j :=
        isOpen_setTerm_of_ne h3 hjnb
      have h5 : isOpen (addEdge st.nblocks (st.nblocks + 1)
          (setTerm st.nblocks (.Break ivar (st.nblocks + 1) (st.nblocks + 1 + 1 + 1))
            (pushOp st.nblocks (.Operator (.Other 0 (some ivar)))
              (addEdge cur st.nblocks
                (setTerm cur (.Loop st.nblocks (st.nblocks + 1 + 1) (st.nblocks + 1 + 1 + 1))
                  { st with nblocks := st.nblocks + 1 + 1 + 1 + 1,
                            current_block := some cur }))))) j :=
        isOpen_addEdge_of_ne h4 (fun hh => hjnb hh.symm)
      exact isOpen_addEdge_of_ne h5 (fun hh => hjnb hh.symm)
    have hSB : ShapeInv (withCurrent (some (st.nblocks + 1))
        (pushBreak (st.nblocks + 1 + 1 + 1)
          (addEdge st.nblocks (st.nblocks + 1 + 1 + 1) (addEdge st.nblocks (st.nblocks + 1)
            (setTerm st.nblocks (.Break ivar (st.nblocks + 1) (st.nblocks + 1 + 1 + 1))
              (pushOp st.nblocks (.Operator (.Other 0 (some ivar)))
                (addEdge cur st.nblocks
                  (setTerm cur (.Loop st.nblocks (st.nblocks + 1 + 1) (st.nblocks + 1 + 1 + 1))
                    { st with nblocks := st.nblocks + 1 + 1 + 1 + 1,
                              current_block := some cur })))))))) := by
      refine ⟨⟨hGX6.term_default, hGX6.edge_lt, hGX6.none_le, hGX6.ifelse_out,
        hGX6.break_out⟩, ?_⟩
      intro c hc
      have hc' : some (st.nblocks + 1) = some c := hc
      injection hc' with hc'
      subst hc'
      exact hopen_grow (st.nblocks + 1) (Nat.le_refl _) (by omega)
    have S1 := ih_body _ _ hIB hSB hres
    have SK1 := parse_scope_ok body _ st11 hIB hres
    have hnb11 : st.nblocks + 1 + 1 + 1 + 1 ≤ st11.nblocks := SK1.nblocks_le
    have hroot11 : st11.root = st.root := SK1.root_eq
    have hret11 : st11.ret = st.ret := SK1.ret_eq
    obtain ⟨hcont11, hcont11c⟩ := S1.open_keep (st.nblocks + 1 + 1)
      (hopen_grow (st.nblocks + 1 + 1) (by omega) (by omega))
      (by intro hh; injection hh with hh; omega)
    obtain ⟨hm11, hm11c⟩ := S1.open_keep (st.nblocks + 1 + 1 + 1)
      (hopen_grow (st.nblocks + 1 + 1 + 1) (by omega) (by omega))
      (by intro hh; injection hh with hh; omega)
    have hIC : Inv (withCurrent (some (st.nblocks + 1 + 1 + 1))
        (popBreak (addEdge (st.nblocks + 1 + 1) st.nblocks
          (pushOp (st.nblocks + 1 + 1) (.Operator (.Other 1 (some ivar)))
            (closeInto (st.nblocks + 1 + 1) st11))))) := by
      refine Inv.withCurrent_some
        (Inv.popBreak' (Inv.addEdge' (Inv.pushOp' (Inv.closeInto' SK1.inv ?_)) ?_ ?_)) ?_
      · rw [hroot11]; omega
      · show st.nblocks + 1 + 1 ≠ (closeInto (st.nblocks + 1 + 1) st11).ret
        rw [closeInto_ret, hret11]; omega
      · show st.nblocks ≠ (closeInto (st.nblocks + 1 + 1) st11).root
        rw [closeInto_root, hroot11]; omega
      · show st.nblocks + 1 + 1 + 1 ≠ (closeInto (st.nblocks + 1 + 1) st11).ret
        rw [closeInto_ret, hret11]; omega
    have hcont_closed : isOpen (closeInto (st.nblocks + 1 + 1) st11) (st.nblocks + 1 + 1) :=
      isOpen_closeInto hcont11 hcont11c
    have hSC : ShapeInv (withCurrent (some (st.nblocks + 1 + 1 + 1))
        (popBreak (addEdge (st.nblocks + 1 + 1) st.nblocks
          (pushOp (st.nblocks + 1 + 1) (.Operator (.Other 1 (some ivar)))
            (closeInto (st.nblocks + 1 + 1) st11))))) := by
      have hGC : GShape (closeInto (st.nblocks + 1 + 1) st11) :=
        S1.shape.core.close S1.shape.cur_open (by omega)
      have hGE : GShape (addEdge (st.nblocks + 1 + 1) st.nblocks
          (pushOp (st.nblocks + 1 + 1) (.Operator (.Other 1 (some ivar)))
            (closeInto (st.nblocks + 1 + 1) st11))) := by
        refine GShape.addEdge_open
          ⟨hGC.term_default, hGC.edge_lt, hGC.none_le, hGC.ifelse_out,
            hGC.break_out⟩ hcont_closed.2.1 hcont_closed.2.2 ?_ ?_
        · show st.nblocks + 1 + 1 < (closeInto (st.nblocks + 1 + 1) st11).nblocks
          rw [closeInto_nblocks]
          omega
        · show st.nblocks < (closeInto (st.nblocks + 1 + 1) st11).nblocks
          rw [closeInto_nblocks]
          omega
      refine ⟨⟨hGE.term_default, hGE.edge_lt, hGE.none_le, hGE.ifelse_out,
        hGE.break_out⟩, ?_⟩
      intro c hc
      have hc' : some (st.nblocks + 1 + 1 + 1) = some c := hc
      injection hc' with hc'
      subst hc'
      exact isOpen_addEdge_of_ne (isOpen_closeInto hm11 hm11c) (by omega)
    have S2 := ih_rest _ _ hIC hSC hrest
    refine ⟨S2.shape, ?_, ?_⟩
    · intro i hi
      rcases S2.open_to i hi with ⟨hiC, himpC⟩ | hcf
      · by_cases him : i = st.nblocks + 1 + 1 + 1
        · refine Or.inr (himpC ?_)
          show some (st.nblocks + 1 + 1 + 1) = some i
          rw [him]
        · have hiC' : isOpen (addEdge (st.nblocks + 1 + 1) st.nblocks
              (pushOp (st.nblocks + 1 + 1) (.Operator (.Other 1 (some ivar)))
                (closeInto (st.nblocks + 1 + 1) st11))) i := hiC
          obtain ⟨h3, hne_cont⟩ := isOpen_addEdge_elim hiC'
          have h3' : isOpen (closeInto (st.nblocks + 1 + 1) st11) i := h3
          obtain ⟨hi11, hc11⟩ := isOpen_closeInto_elim h3'
          rcases S1.open_to i hi11 with ⟨hiB, himpB⟩ | hc1'
          · by_cases hit : i = st.nblocks + 1
            · exfalso
              apply hc11
              apply himpB
              show some (st.nblocks + 1) = some i
              rw [hit]
            · have hiB' : isOpen (addEdge st.nblocks (st.nblocks + 1 + 1 + 1)
                  (addEdge st.nblocks (st.nblocks + 1)
                    (setTerm st.nblocks (.Break ivar (st.nblocks + 1) (st.nblocks + 1 + 1 + 1))
                      (pushOp st.nblocks (.Operator (.Other 0 (some ivar)))
                        (addEdge cur st.nblocks
                          (setTerm cur (.Loop st.nblocks (st.nblocks + 1 + 1) (st.nblocks + 1 + 1 + 1))
                            { st with nblocks := st.nblocks + 1 + 1 + 1 + 1,
                                      current_block := some cur })))))) i := hiB
              obtain ⟨h4, _⟩ := isOpen_addEdge_elim hiB'
              obtain ⟨h5, _⟩ := isOpen_addEdge_elim h4
              obtain ⟨h6, hinb⟩ := isOpen_setTerm_elim
                (fun hh => ControlFlow.noConfusion hh) h5
              have h6' : isOpen (addEdge cur st.nblocks
                  (setTerm cur (.Loop st.nblocks (st.nblocks + 1 + 1) (st.nblocks + 1 + 1 + 1))
                    { st with nblocks := st.nblocks + 1 + 1 + 1 + 1,
                              current_block := some cur })) i := h6
              obtain ⟨h7, _⟩ := isOpen_addEdge_elim h6'
              obtain ⟨h8, hicur⟩ := isOpen_setTerm_elim
                (fun hh => ControlFlow.noConfusion hh) h7
              rcases @isOpen_core_elim st
                { st with nblocks := st.nblocks + 1 + 1 + 1 + 1,
                          current_block := some cur } i rfl rfl h8 with h9 | h9
              · refine Or.inl ⟨h9, ?_⟩
                intro hc
                rw [hcb] at hc
                injection hc with hc
                exact absurd hc.symm hicur
              · exfalso
                have h10 : i < st.nblocks + 1 + 1 + 1 + 1 := h8.1
                omega
          · exact absurd hc1' hc11
      · exact Or.inr hcf
    · intro i hi hc
      have hicur : i ≠ cur := by
        intro hh
        subst hh
        exact hc hcb
      have hilt : i < st.nblocks := hi.1
      have hiB : isOpen (withCurrent (some (st.nblocks + 1))
          (pushBreak (st.nblocks + 1 + 1 + 1)
            (addEdge st.nblocks (st.nblocks + 1 + 1 + 1) (addEdge st.nblocks (st.nblocks + 1)
              (setTerm st.nblocks (.Break ivar (st.nblocks + 1) (st.nblocks + 1 + 1 + 1))
                (pushOp st.nblocks (.Operator (.Other 0 (some ivar)))
                  (addEdge cur st.nblocks
                    (setTerm cur (.Loop st.nblocks (st.nblocks + 1 + 1) (st.nblocks + 1 + 1 + 1))
                      { st with nblocks := st.nblocks + 1 + 1 + 1 + 1,
                                current_block := some cur })))))))) i := by
        show isOpen (addEdge st.nblocks (st.nblocks + 1 + 1 + 1)
          (addEdge st.nblocks (st.nblocks + 1)
            (setTerm st.nblocks (.Break ivar (st.nblocks + 1) (st.nblocks + 1 + 1 + 1))
              (pushOp st.nblocks (.Operator (.Other 0 (some ivar)))
                (addEdge cur st.nblocks
                  (setTerm cur (.Loop st.nblocks (st.nblocks + 1 + 1) (st.nblocks + 1 + 1 + 1))
                    { st with nblocks := st.nblocks + 1 + 1 + 1 + 1,
                              current_block := some cur })))))) i
        have hinb : i ≠ st.nblocks := by omega
        have hbase := @isOpen_core_intro st
          { st with nblocks := st.nblocks + 1 + 1 + 1 + 1,
                    current_block := some cur } i
          rfl rfl (Nat.le_add_right _ 4) hi
        have h1 : isOpen (setTerm cur
            (.Loop st.nblocks (st.nblocks + 1 + 1) (st.nblocks + 1 + 1 + 1))
            { st with nblocks := st.nblocks + 1 + 1 + 1 + 1,
                      current_block := some cur }) i :=
          isOpen_setTerm_of_ne hbase hicur
        have h2 : isOpen (addEdge cur st.nblocks
            (setTerm cur (.Loop st.nblocks (st.nblocks + 1 + 1) (st.nblocks + 1 + 1 + 1))
              { st with nblocks := st.nblocks + 1 + 1 + 1 + 1,
                        current_block := some cur })) i :=
          isOpen_addEdge_of_ne h1 (fun hh => hicur hh.symm)
        have h3 : isOpen (pushOp st.nblocks (.Operator (.Other 0 (some ivar)))
            (addEdge cur st.nblocks
              (setTerm cur (.Loop st.nblocks (st.nblocks + 1 + 1) (st.nblocks + 1 + 1 + 1))
                { st with nblocks := st.nblocks + 1 + 1 + 1 + 1,
                          current_block := some cur }))) i := h2
        have h4 : isOpen (setTerm st.nblocks
            (.Break ivar (st.nblocks + 1) (st.nblocks + 1 + 1 + 1))
            (pushOp st.nblocks (.Operator (.Other 0 (some ivar)))
              (addEdge cur st.nblocks
                (setTerm cur (.Loop st.nblocks (st.nblocks + 1 + 1) (st.nblocks + 1 + 1 + 1))
                  { st with nblocks := st.nblocks + 1 + 1 + 1 + 1,
                            current_block := some cur })))) i :=
          isOpen_setTerm_of_ne h3 hinb
        have h5 : isOpen (addEdge st.nblocks (st.nblocks + 1)
            (setTerm st.nblocks (.Break ivar (st.nblocks + 1) (st.nblocks + 1 + 1 + 1))
              (pushOp st.nblocks (.Operator (.Other 0 (some ivar)))
                (addEdge cur st.nblocks
                  (setTerm cur (.Loop st.nblocks (st.nblocks + 1 + 1) (st.nblocks + 1 + 1 + 1))
                    { st with nblocks := st.nblocks + 1 + 1 + 1 + 1,
                              current_block := some cur }))))) i :=
          isOpen_addEdge_of_ne h4 (fun hh => hinb hh.symm)
        exact isOpen_addEdge_of_ne h5 (fun hh => hinb hh.symm)
      obtain ⟨hi11, hc11⟩ := S1.open_keep i hiB
        (by intro hh; injection hh with hh; omega)
      exact S2.open_keep i
        (isOpen_addEdge_of_ne (isOpen_closeInto hi11 hc11) (by omega))
        (by intro hh; injection hh with hh; omega)
  | branchReturn rest ih =>
    intro st st' hI hS hp
    obtain ⟨cur, hcb, h1⟩ := parse_scope_branchReturn_elim hp
    obtain ⟨hc1, hc2, hc3⟩ := hS.cur_open cur hcb
    have hIB : Inv (withCurrent none (addEdge cur st.ret st)) :=
      Inv.withCurrent_none (Inv.addEdge' hI (hI.cur_ne_ret cur hcb)
        (fun hh => hI.root_ne_ret hh.symm))
    have hSB : ShapeInv (withCurrent none (addEdge cur st.ret st)) := by
      have hG := hS.core.addEdge_open hc2 hc3 hc1 hI.ret_lt
      refine ⟨⟨hG.term_default, hG.edge_lt, hG.none_le, hG.ifelse_out,
        hG.break_out⟩, ?_⟩
      intro c hc
      exact Option.noConfusion hc
    have S := ih _ _ hIB hSB h1
    refine ⟨S.shape, ?_, ?_⟩
    · intro i hi
      rcases S.open_to i hi with ⟨h2, h3⟩ | h2
      · have h2' : isOpen (addEdge cur st.ret st) i := h2
        obtain ⟨h4, h5⟩ := isOpen_addEdge_elim h2'
        left
        refine ⟨h4, ?_⟩
        intro hc
        rw [hcb] at hc
        injection hc with hc
        exact absurd hc h5
      · exact Or.inr h2
    · intro i hi hc
      have hne : cur ≠ i := by
        intro hh
        subst hh
        exact hc hcb
      have hiB : isOpen (withCurrent none (addEdge cur st.ret st)) i :=
        isOpen_addEdge_of_ne hi hne
      exact S.open_keep i hiB (fun hh => Option.noConfusion hh)
  | procedure body rest ih_body ih_rest =>
    intro st st' hI hS hp
    obtain ⟨st1, h1, h2⟩ := parse_scope_procedure_elim hp
    have S1 := ih_body _ _ hI hS h1
    have S2 := ih_rest _ _ (parse_scope_ok body st st1 hI h1).inv S1.shape h2
    exact S1.trans_shape S2

/-- The initial two-block state satisfies the shape invariant: no edges, the
entry block open and current, the return block terminated. -/
theorem shapeInv_initState : ShapeInv initState := by
  refine ⟨⟨?_, ?_, ?_, ?_, ?_⟩, ?_⟩
  · intro i hi
    have hi2 : 2 ≤ i := hi
    show (if i = 1 then ControlFlow.Return else ControlFlow.None) = ControlFlow.None
    have hne : ¬ i = 1 := by omega
    rw [if_neg hne]
  · intro e he
    have he2 : e ∈ ([] : List (Nat × Nat)) := he
    exact absurd he2 (List.not_mem_nil e)
  · intro i _
    exact Nat.zero_le 1
  · intro i cond t e m hterm
    by_cases h1 : i = 1
    · subst h1
      have h2 : ControlFlow.Return = ControlFlow.IfElse cond t e m := hterm
      exact ControlFlow.noConfusion h2
    · have h2 : (if i = 1 then ControlFlow.Return else ControlFlow.None) =
          ControlFlow.IfElse cond t e m := hterm
      rw [if_neg h1] at h2
      exact ControlFlow.noConfusion h2
  · intro i cond b ob hterm
    by_cases h1 : i = 1
    · subst h1
      have h2 : ControlFlow.Return = ControlFlow.Break cond b ob := hterm
      exact ControlFlow.noConfusion h2
    · have h2 : (if i = 1 then ControlFlow.Return else ControlFlow.None) =
          ControlFlow.Break cond b ob := hterm
      rw [if_neg h1] at h2
      exact ControlFlow.noConfusion h2
  · intro c hc
    have hc' : (some 0 : Option Nat) = some c := hc
    injection hc' with hc'
    subst hc'
    refine ⟨?_, rfl, rfl⟩
    show (0 : Nat) < 2
    omega

/-- After `parse_graph` closes the final open block, the whole graph has the
backend shape: defaulted terminators past the frontier, in-range edges,
`IfElse`/`Break` out-edge lists, an in-range root, and — the key fact for C8 —
every allocated block whose terminator is `None` has exactly one out-edge. -/
theorem parse_graph_shape (sc : CScope) (st : ParseState)
    (h : parse_graph sc = some st) :
    GShape st ∧ st.root < st.nblocks ∧
      ∀ i, i < st.nblocks → st.term i = ControlFlow.None →
        (outTargets st i).length = 1 := by
  unfold parse_graph at h
  cases hps : parse_scope sc initState with
  | none =>
    rw [hps] at h
    exact Option.noConfusion h
  | some st5 =>
    rw [hps] at h
    have h2 : (match st5.current_block with
      | some current_block => some (addEdge current_block st5.ret st5)
      | none => some st5) = some st := h
    clear h
    have SO := parse_scope_ok sc initState st5 inv_initState hps
    have SS := parse_scope_shape sc initState st5 inv_initState shapeInv_initState hps
    have hroot5 : st5.root < st5.nblocks := SO.inv.root_lt
    have hret5 : st5.ret < st5.nblocks := SO.inv.ret_lt
    have hopen_cur : ∀ i, isOpen st5 i → st5.current_block = some i := by
      intro i hi
      rcases SS.open_to i hi with ⟨hini, hkeep⟩ | hc
      · have h0 : i = 0 := by
          obtain ⟨hlt, hterm, _⟩ := hini
          have hlt2 : i < 2 := hlt
          by_cases h1 : i = 1
          · subst h1
            have h3 : ControlFlow.Return = ControlFlow.None := hterm
            exact ControlFlow.noConfusion h3
          · omega
        subst h0
        exact hkeep rfl
      · exact hc
    cases hcb : st5.current_block with
    | none =>
      rw [hcb] at h2
      injection h2 with h2
      subst h2
      refine ⟨SS.shape.core, hroot5, ?_⟩
      intro i hlt hterm
      have hle := SS.shape.core.none_le i hterm
      by_cases hz : (outTargets st5 i).length = 0
      · exfalso
        have hnil : outTargets st5 i = [] := List.eq_nil_of_length_eq_zero hz
        have hcc := hopen_cur i ⟨hlt, hterm, hnil⟩
        rw [hcb] at hcc
        exact Option.noConfusion hcc
      · omega
    | some cur =>
      rw [hcb] at h2
      injection h2 with h2
      subst h2
      have hcur := SS.shape.cur_open cur hcb
      have hG : GShape (addEdge cur st5.ret st5) :=
        GShape.addEdge_open SS.shape.core hcur.2.1 hcur.2.2 hcur.1 hret5
      refine ⟨hG, hroot5, ?_⟩
      intro i hlt hterm
      have hlt5 : i < st5.nblocks := hlt
      have hterm5 : st5.term i = ControlFlow.None := hterm
      rw [outTargets_addEdge]
      by_cases hic : i = cur
      · subst hic
        rw [if_pos rfl, hcur.2.2]
        rfl
      · have hne : ¬ cur = i := fun hh => hic hh.symm
        rw [if_neg hne, List.append_nil]
        by_cases hz : (outTargets st5 i).length = 0
        · exfalso
          have hnil : outTargets st5 i = [] := List.eq_nil_of_length_eq_zero hz
          have hcc := hopen_cur i ⟨hlt5, hterm5, hnil⟩
          rw [hcb] at hcc
          injection hcc with hcc
          exact hic hcc.symm
        · have hle := SS.shape.core.none_le i hterm5
          omega

/-! ## The graph handed to the backend, and the CFG-mutating passes (C8)

The optimizer exposes the petgraph node set, each block's terminator and the
directed edge list to the backend (`entry()`, `block(id)`, `sucessors(id)`).
The only passes that mutate this graph are `EliminateConstBranches` and
`EliminateDeadBlocks`; every other pass rewrites ops, phis or variables and
leaves nodes, terminators and edges unchanged.  The pass bodies live in
`passes/`, so their graph effect is modelled from the spec below. -/

/-- The control-flow graph a compiled `Optimizer` exposes: the live node ids,
the root id, each node's terminator and the directed edge list. -/
structure OptGraph where
  nodes : List Nat
  root : Nat
  term : Nat → ControlFlow
  edges : List (Nat × Nat)

/-- `Optimizer::sucessors` (lib.rs lines 303-308): the targets of the
outgoing edges of `block`. -/
def sucessors (g : OptGraph) (i : Nat) : List Nat :=
  (g.edges.filter fun e => e.1 == i).map Prod.snd

/-- The freshly parsed state, viewed as the graph the passes then mutate. -/
def toOptGraph (st : ParseState) : OptGraph :=
  ⟨List.range st.nblocks, st.root, st.term, st.edges⟩

/-- The out-edge list a terminator requires: a `None` fallthrough has exactly
one successor (the shape `compile_control_flow` asserts, branch.rs lines
189-201), `IfElse` and `Break` list their two targets. -/
def termOk (t : ControlFlow) (succ : List Nat) : Prop :=
  match t with
  | .None => succ.length = 1
  | .IfElse _ a b _ => succ = [a, b]
  | .Break _ a b => succ = [a, b]
  | _ => True

/-- One node of the backend graph is well-shaped. -/
def nodeOk (g : OptGraph) (i : Nat) : Prop :=
  termOk (g.term i) (sucessors g i)

/-- The backend-graph invariant: the root is a node, edges join nodes, and
every node's out-edge list matches its terminator. -/
structure GInv (g : OptGraph) : Prop where
  root_mem : g.root ∈ g.nodes
  edge_mem : ∀ e ∈ g.edges, e.1 ∈ g.nodes ∧ e.2 ∈ g.nodes
  ok : ∀ i ∈ g.nodes, nodeOk g i

/-- One step of the reachability closure: a set together with every successor
of its members. -/
def reachStep (g : OptGraph) (s : Finset ℕ) : Finset ℕ :=
  s ∪ s.biUnion fun i => (sucessors g i).toFinset

/-- `n` steps of the reachability closure from the root. -/
def reachN (g : OptGraph) : Nat → Finset ℕ
  | 0 => {g.root}
  | n + 1 => reachStep g (reachN g n)

/-- Modelled from the spec: the set of blocks reachable from `root`
(`EliminateDeadBlocks` keeps exactly these).  `nodes.length` closure steps
saturate. -/
def live (g : OptGraph) : Finset ℕ := reachN g g.nodes.length

theorem root_mem_reachN (g : OptGraph) : ∀ n, g.root ∈ reachN g n := by
  intro n
  induction n with
  | zero => exact Finset.mem_singleton_self g.root
  | succ n ih => exact Finset.mem_union.mpr (Or.inl ih)

theorem reachN_subset_nodes (g : OptGraph) (hroot : g.root ∈ g.nodes)
    (hedge : ∀ e ∈ g.edges, e.2 ∈ g.nodes) :
    ∀ n, reachN g n ⊆ g.nodes.toFinset := by
  intro n
  induction n with
  | zero =>
    intro x hx
    have hx2 : x = g.root := Finset.mem_singleton.mp hx
    subst hx2
    exact List.mem_toFinset.mpr hroot
  | succ n ih =>
    intro x hx
    rcases Finset.mem_union.mp hx with hx | hx
    · exact ih hx
    · obtain ⟨i, _, hxi⟩ := Finset.mem_biUnion.mp hx
      have hx2 : x ∈ sucessors g i := List.mem_toFinset.mp hxi
      have hx3 : x ∈ (g.edges.filter fun e => e.1 == i).map Prod.snd := hx2
      obtain ⟨e, he, hesnd⟩ := List.mem_map.mp hx3
      have he2 : e ∈ g.edges := List.mem_of_mem_filter he
      exact List.mem_toFinset.mpr (hesnd ▸ hedge e he2)

theorem reachN_growth (g : OptGraph) :
    ∀ n, reachN g (n + 1) = reachN g n ∨ n + 1 ≤ (reachN g n).card := by
  intro n
  induction n with
  | zero =>
    right
    show 1 ≤ ({g.root} : Finset ℕ).card
    rw [Finset.card_singleton]
  | succ n ih =>
    by_cases heq : reachN g (n + 1) = reachN g n
    · left
      show reachStep g (reachN g (n + 1)) = reachN g (n + 1)
      rw [heq]
      exact heq
    · right
      have hcard : n + 1 ≤ (reachN g n).card := by
        rcases ih with hfix | hcard
        · exact absurd hfix heq
        · exact hcard
      have hsub : reachN g n ⊆ reachN g (n + 1) := Finset.subset_union_left
      have hss : reachN g n ⊂ reachN g (n + 1) :=
        Finset.ssubset_iff_subset_ne.mpr ⟨hsub, fun hh => heq hh.symm⟩
      have := Finset.card_lt_card hss
      omega

theorem live_fix (g : OptGraph) (hroot : g.root ∈ g.nodes)
    (hedge : ∀ e ∈ g.edges, e.2 ∈ g.nodes) :
    reachStep g (live g) = live g := by
  rcases reachN_growth g g.nodes.length with hfix | hcard
  · exact hfix
  · exfalso
    have h1 : (reachN g g.nodes.length).card ≤ g.nodes.toFinset.card :=
      Finset.card_le_card (reachN_subset_nodes g hroot hedge _)
    have h2 : g.nodes.toFinset.card ≤ g.nodes.length := g.nodes.toFinset_card_le
    omega

theorem live_closed (g : OptGraph) (hroot : g.root ∈ g.nodes)
    (hedge : ∀ e ∈ g.edges, e.2 ∈ g.nodes) {i j : Nat} (hi : i ∈ live g)
    (hj : j ∈ sucessors g i) : j ∈ live g := by
  have hstep : j ∈ reachStep g (live g) :=
    Finset.mem_union.mpr (Or.inr (Finset.mem_biUnion.mpr
      ⟨i, hi, List.mem_toFinset.mpr hj⟩))
  rwa [live_fix g hroot hedge] at hstep

theorem root_mem_live (g : OptGraph) : g.root ∈ live g :=
  root_mem_reachN g _

/-- Modelled from the spec: `EliminateDeadBlocks` — any block unreachable
from `root` is removed, and edges incident to removed blocks are dropped. -/
def elimDeadBlocks (g : OptGraph) : OptGraph :=
  ⟨g.nodes.filter fun i => decide (i ∈ live g), g.root, g.term,
   g.edges.filter fun e => decide (e.1 ∈ live g) && decide (e.2 ∈ live g)⟩

theorem filter_filter_comm {α : Type} (p q : α → Bool) :
    ∀ l : List α, (l.filter p).filter q = (l.filter q).filter p := by
  intro l
  induction l with
  | nil => rfl
  | cons a l ih =>
    by_cases hp : p a <;> by_cases hq : q a <;>
      simp [List.filter_cons, hp, hq, ih]

/-- Dead-block elimination keeps the whole out-edge list of a live block:
the sources coincide and every target of a live block is itself live. -/
theorem sucessors_elimDeadBlocks (g : OptGraph) (hroot : g.root ∈ g.nodes)
    (hedge : ∀ e ∈ g.edges, e.2 ∈ g.nodes) (i : Nat) (hi : i ∈ live g) :
    sucessors (elimDeadBlocks g) i = sucessors g i := by
  have hsub : (g.edges.filter fun e => e.1 == i).filter
      (fun e => decide (e.1 ∈ live g) && decide (e.2 ∈ live g)) =
      g.edges.filter fun e => e.1 == i := by
    apply List.filter_eq_self.mpr
    intro e he
    have hfst : e.1 = i := by
      have := List.of_mem_filter he
      simpa using this
    have hsucc : e.2 ∈ sucessors g i := by
      show e.2 ∈ (g.edges.filter fun x => x.1 == i).map Prod.snd
      exact List.mem_map.mpr ⟨e, he, rfl⟩
    have hlive1 : e.1 ∈ live g := hfst ▸ hi
    have hlive2 : e.2 ∈ live g := live_closed g hroot hedge hi hsucc
    simp [hlive1, hlive2]
  show ((g.edges.filter fun e => decide (e.1 ∈ live g) &&
      decide (e.2 ∈ live g)).filter fun e => e.1 == i).map Prod.snd =
    (g.edges.filter fun e => e.1 == i).map Prod.snd
  rw [filter_filter_comm, hsub]

/-- Dead-block elimination preserves the backend-graph invariant. -/
theorem elimDeadBlocks_GInv (g : OptGraph) (hg : GInv g) :
    GInv (elimDeadBlocks g) := by
  have hedge2 : ∀ e ∈ g.edges, e.2 ∈ g.nodes := fun e he => (hg.edge_mem e he).2
  refine ⟨?_, ?_, ?_⟩
  · show g.root ∈ g.nodes.filter fun i => decide (i ∈ live g)
    exact List.mem_filter.mpr ⟨hg.root_mem, by simp [root_mem_live g]⟩
  · intro e he
    have he' : e ∈ g.edges.filter
        fun e => decide (e.1 ∈ live g) && decide (e.2 ∈ live g) := he
    have hmem := List.mem_of_mem_filter he'
    have hP := List.of_mem_filter he'
    simp only [Bool.and_eq_true, decide_eq_true_eq] at hP
    constructor
    · show e.1 ∈ g.nodes.filter fun i => decide (i ∈ live g)
      exact List.mem_filter.mpr ⟨(hg.edge_mem e hmem).1, by simp [hP.1]⟩
    · show e.2 ∈ g.nodes.filter fun i => decide (i ∈ live g)
      exact List.mem_filter.mpr ⟨(hg.edge_mem e hmem).2, by simp [hP.2]⟩
  · intro i hi
    have hi' : i ∈ g.nodes.filter fun j => decide (j ∈ live g) := hi
    have hmem := List.mem_of_mem_filter hi'
    have hlive : i ∈ live g := by
      have := List.of_mem_filter hi'
      simpa using this
    have hok : termOk (g.term i) (sucessors g i) := hg.ok i hmem
    show termOk (g.term i) (sucessors (elimDeadBlocks g) i)
    rw [sucessors_elimDeadBlocks g hg.root_mem hedge2 i hlive]
    exact hok

/-- Modelled from the spec: `EliminateConstBranches` — a constant `IfElse` or
`Break` terminator at `i` becomes an unconditional fallthrough (`None`) and
the edge to the untaken side is detached. -/
def elimConstBranchAt (g : OptGraph) (i untaken : Nat) : OptGraph :=
  ⟨g.nodes, g.root, fun j => if j = i then ControlFlow.None else g.term j,
   g.edges.erase (i, untaken)⟩

theorem filter_erase_pos {α : Type} [BEq α] [LawfulBEq α] (p : α → Bool)
    (a : α) (h : p a = true) :
    ∀ l : List α, (l.erase a).filter p = (l.filter p).erase a := by
  intro l
  induction l with
  | nil => rfl
  | cons x xs ih =>
    by_cases hxa : x = a
    · subst hxa
      simp [List.erase_cons, List.filter_cons, h]
    · have hbe : (x == a) = false := by
        simp [hxa]
      by_cases hp : p x = true
      · simp [List.erase_cons, hbe, List.filter_cons, hp, ih]
      · simp [List.erase_cons, hbe, List.filter_cons, hp, ih]

theorem filter_erase_neg {α : Type} [BEq α] [LawfulBEq α] (p : α → Bool)
    (a : α) (h : p a = false) :
    ∀ l : List α, (l.erase a).filter p = l.filter p := by
  intro l
  induction l with
  | nil => rfl
  | cons x xs ih =>
    by_cases hxa : x = a
    · subst hxa
      simp [List.erase_cons, List.filter_cons, h]
    · have hbe : (x == a) = false := by
        simp [hxa]
      by_cases hp : p x = true
      · simp [List.erase_cons, hbe, List.filter_cons, hp, ih]
      · simp [List.erase_cons, hbe, List.filter_cons, hp, ih]

/-- After detaching one side of a two-target block, exactly one out-edge
remains (also when both targets coincide: `erase` removes one copy). -/
theorem sucessors_elimConst_length (g : OptGraph) (i t e untaken : Nat)
    (hsucc : sucessors g i = [t, e]) (hu : untaken = t ∨ untaken = e) :
    (sucessors (elimConstBranchAt g i untaken) i).length = 1 := by
  have hF : g.edges.filter (fun x => x.1 == i) = [(i, t), (i, e)] := by
    have hs : (g.edges.filter fun x => x.1 == i).map Prod.snd = [t, e] := hsucc
    cases hFc : g.edges.filter (fun x => x.1 == i) with
    | nil =>
      rw [hFc] at hs
      exact absurd hs (by simp)
    | cons a F1 =>
      cases F1 with
      | nil =>
        rw [hFc] at hs
        simp at hs
      | cons b F2 =>
        cases F2 with
        | nil =>
          rw [hFc] at hs
          simp at hs
          have ha : a ∈ g.edges.filter (fun x => x.1 == i) := by
            rw [hFc]
            exact List.mem_cons_self a _
          have hb : b ∈ g.edges.filter (fun x => x.1 == i) := by
            rw [hFc]
            simp
          have ha1 : a.1 = i := by
            have := List.of_mem_filter ha
            simpa using this
          have hb1 : b.1 = i := by
            have := List.of_mem_filter hb
            simpa using this
          have ha2 : a = (i, t) := by
            obtain ⟨a1, a2⟩ := a
            simp at ha1 hs
            rw [ha1, hs.1]
          have hb2 : b = (i, e) := by
            obtain ⟨b1, b2⟩ := b
            simp at hb1 hs
            rw [hb1, hs.2]
          rw [ha2, hb2]
        | cons c F3 =>
          rw [hFc] at hs
          simp at hs
  have hgoal : (((g.edges.erase (i, untaken)).filter
      (fun x => x.1 == i)).map Prod.snd).length = 1 := by
    rw [filter_erase_pos (fun x => x.1 == i) (i, untaken) (by simp), hF]
    rcases hu with hu | hu
    · subst hu
      simp [List.erase_cons]
    · subst hu
      by_cases hte : t = untaken
      · subst hte
        simp [List.erase_cons]
      · have hne : ((i, t) == (i, untaken)) = false := by
          simp [hte]
        simp [List.erase_cons, hne]
  exact hgoal

/-- Detaching an edge sourced at `i` leaves the out-edge list of every other
block unchanged. -/
theorem sucessors_elimConst_ne (g : OptGraph) (i untaken j : Nat)
    (hne : i ≠ j) : sucessors (elimConstBranchAt g i untaken) j =
      sucessors g j := by
  show ((g.edges.erase (i, untaken)).filter fun x => x.1 == j).map Prod.snd =
    (g.edges.filter fun x => x.1 == j).map Prod.snd
  rw [filter_erase_neg (fun x => x.1 == j) (i, untaken) (by simp [hne])]

/-- Const-branch elimination preserves the backend-graph invariant when the
eliminated block had the two-target shape its terminator promises. -/
theorem elimConst_GInv (g : OptGraph) (i t e untaken : Nat)
    (hsucc : sucessors g i = [t, e]) (hu : untaken = t ∨ untaken = e)
    (hg : GInv g) : GInv (elimConstBranchAt g i untaken) := by
  refine ⟨hg.root_mem, ?_, ?_⟩
  · intro x hx
    have hx' : x ∈ g.edges.erase (i, untaken) := hx
    exact hg.edge_mem x (List.erase_subset _ _ hx')
  · intro j hj
    have hj' : j ∈ g.nodes := hj
    by_cases hij : j = i
    · subst hij
      show termOk ((elimConstBranchAt g j untaken).term j)
        (sucessors (elimConstBranchAt g j untaken) j)
      have hterm : (elimConstBranchAt g j untaken).term j =
          ControlFlow.None := by
        show (if j = j then ControlFlow.None else g.term j) = ControlFlow.None
        rw [if_pos rfl]
      rw [hterm]
      show (sucessors (elimConstBranchAt g j untaken) j).length = 1
      exact sucessors_elimConst_length g j t e untaken hsucc hu
    · have hterm : (elimConstBranchAt g i untaken).term j = g.term j := by
        show (if j = i then ControlFlow.None else g.term j) = g.term j
        rw [if_neg hij]
      show termOk ((elimConstBranchAt g i untaken).term j)
        (sucessors (elimConstBranchAt g i untaken) j)
      rw [hterm, sucessors_elimConst_ne g i untaken j (fun hh => hij hh.symm)]
      exact hg.ok j hj'

/-- Modelled from the spec: how one optimizer pass acts on the control-flow
graph.  Every pass except `EliminateConstBranches` and `EliminateDeadBlocks`
rewrites ops, phis or variables only, leaving nodes, root, terminators and
edges unchanged; `EliminateConstBranches` folds a constant `IfElse`/`Break`
at a node into a fallthrough to the taken side; `EliminateDeadBlocks` keeps
the blocks reachable from `root`. -/
inductive PassStep : OptGraph → OptGraph → Prop where
  | ops_only : ∀ g g' : OptGraph, g'.nodes = g.nodes → g'.root = g.root →
      g'.term = g.term → g'.edges = g.edges → PassStep g g'
  | const_if_else : ∀ (g : OptGraph) (i : Nat) (cond : Variable)
      (t e m untaken : Nat), i ∈ g.nodes →
      g.term i = ControlFlow.IfElse cond t e m →
      untaken = t ∨ untaken = e → PassStep g (elimConstBranchAt g i untaken)
  | const_break : ∀ (g : OptGraph) (i : Nat) (cond : Variable)
      (b ob untaken : Nat), i ∈ g.nodes →
      g.term i = ControlFlow.Break cond b ob →
      untaken = b ∨ untaken = ob → PassStep g (elimConstBranchAt g i untaken)
  | dead_blocks : ∀ g : OptGraph, PassStep g (elimDeadBlocks g)

/-- Every single pass step preserves the backend-graph invariant. -/
theorem passStep_GInv {g g' : OptGraph} (h : PassStep g g') (hg : GInv g) :
    GInv g' := by
  cases h with
  | ops_only g' hnodes hroot hterm hedges =>
    have hgg : g' = g := by
      cases g'
      cases g
      simp only at hnodes hroot hterm hedges
      rw [hnodes, hroot, hterm, hedges]
    rw [hgg]
    exact hg
  | const_if_else i cond t e m untaken hmem hterm hu =>
    have hok : termOk (g.term i) (sucessors g i) := hg.ok i hmem
    rw [hterm] at hok
    have hsucc : sucessors g i = [t, e] := hok
    exact elimConst_GInv g i t e untaken hsucc hu hg
  | const_break i cond b ob untaken hmem hterm hu =>
    have hok : termOk (g.term i) (sucessors g i) := hg.ok i hmem
    rw [hterm] at hok
    have hsucc : sucessors g i = [b, ob] := hok
    exact elimConst_GInv g i b ob untaken hsucc hu hg
  | dead_blocks => exact elimDeadBlocks_GInv g hg

/-- Any sequence of pass steps preserves the backend-graph invariant. -/
theorem passSteps_GInv {g g' : OptGraph}
    (h : Relation.ReflTransGen PassStep g g') (hg : GInv g) : GInv g' := by
  induction h with
  | refl => exact hg
  | tail _ hstep ih => exact passStep_GInv hstep ih

/-- The freshly parsed graph satisfies the backend-graph invariant. -/
theorem toOptGraph_GInv (sc : CScope) (st : ParseState)
    (h : parse_graph sc = some st) : GInv (toOptGraph st) := by
  obtain ⟨hG, hroot, hnone⟩ := parse_graph_shape sc st h
  refine ⟨?_, ?_, ?_⟩
  · show st.root ∈ List.range st.nblocks
    exact List.mem_range.mpr hroot
  · intro e he
    have he' : e ∈ st.edges := he
    have hlt := hG.edge_lt e he'
    exact ⟨List.mem_range.mpr hlt.1, List.mem_range.mpr hlt.2⟩
  · intro i hi
    have hi' : i < st.nblocks := List.mem_range.mp (by exact hi)
    show termOk (st.term i) (sucessors (toOptGraph st) i)
    cases hterm : st.term i with
    | None => exact hnone i hi' hterm
    | IfElse cond t e m => exact hG.ifelse_out i cond t e m hterm
    | Break cond b ob => exact hG.break_out i cond b ob hterm
    | Switch v d cs m => exact trivial
    | Loop b c m => exact trivial
    | Return => exact trivial

/-- C8: every basic block whose terminator is `ControlFlow::None` has exactly
one outgoing edge in every graph the optimizer hands to the backend: the
parser establishes the shape, every pass preserves it, so the assertion in
`compile_control_flow` (branch.rs lines 189-201) that `sucessors` returns
exactly one target never fires. -/
theorem none_terminator_single_successor (sc : CScope) (st : ParseState)
    (g : OptGraph) (hp : parse_graph sc = some st)
    (hs : Relation.ReflTransGen PassStep (toOptGraph st) g)
    (i : Nat) (hi : i ∈ g.nodes) (ht : g.term i = ControlFlow.None) :
    (sucessors g i).length = 1 := by
  have hok : termOk (g.term i) (sucessors g i) :=
    (passSteps_GInv hs (toOptGraph_GInv sc st hp)).ok i hi
  rw [ht] at hok
  exact hok

/-- The graph parsed from the empty scope: two blocks and the closing edge. -/
def stW8 : ParseState := (parse_graph CScope.nil).getD ParseState.initial

/-- Witness for C8: on the concrete empty scope, parsing succeeds, block 0 of
the resulting backend graph is a `None` block, and it has exactly one
outgoing edge. -/
theorem none_terminator_single_successor_witness :
    parse_graph CScope.nil = some stW8 ∧
    0 ∈ (toOptGraph stW8).nodes ∧
    (toOptGraph stW8).term 0 = ControlFlow.None ∧
    (sucessors (toOptGraph stW8) 0).length = 1 :=
  ⟨rfl, by decide, rfl,
    none_terminator_single_successor CScope.nil stW8 (toOptGraph stW8) rfl
      Relation.ReflTransGen.refl 0 (by decide) rfl⟩

end CubeclOpt
